import Mathlib

/-!
Verification development for the PharmApp folder/file renamer core
(`FolderRenamer_v9.py`, with the v12 GUI's inline suffix probe where noted).

Strings are modelled as lists of Unicode code points (`List Nat`), paths as
lists of path segments (root first), and the filesystem as an association
list from absolute paths to nodes.  The Unicode data consulted by
`unicodedata` (canonical decompositions, the combining property) and Python's
`str.upper` are modelled by explicit tables covering the Basic Latin and
Vietnamese repertoire the program is about; code points outside the tables
decompose to themselves, are not combining, and have no case mapping.
`hashlib.sha256` is modelled as a collision-free digest (the byte stream
itself), so digest equality coincides with content equality in the model.
-/

namespace Renamer

/-! ## Name transform (`transform_name`, `remove_vietnamese_diacritics`) -/

/-- `s.replace("-", "_")`, one code point at a time (45 is `-`, 95 is `_`). -/
def hyphenRepl (c : Nat) : Nat := if c = 45 then 95 else c

/-- `s.replace(" ", "_")` (32 is the space). -/
def spaceRepl (c : Nat) : Nat := if c = 32 then 95 else c

/-- `s.replace("đ", "d").replace("Đ", "D")`: 273 is `đ`, 272 is `Đ`. -/
def dBarRepl (c : Nat) : Nat :=
  if c = 273 then 100 else if c = 272 then 68 else c

/-- Canonical (NFD) decomposition of one code point, per the Unicode data for
the modelled repertoire (Vietnamese precomposed vowels); points outside the
table decompose to themselves. -/
def nfdChar (c : Nat) : List Nat :=
  match c with
  | 225 => [97, 769]        -- á
  | 224 => [97, 768]        -- à
  | 7843 => [97, 777]       -- ả
  | 227 => [97, 771]        -- ã
  | 7841 => [97, 803]       -- ạ
  | 259 => [97, 774]        -- ă
  | 226 => [97, 770]        -- â
  | 233 => [101, 769]       -- é
  | 234 => [101, 770]       -- ê
  | 7871 => [101, 770, 769] -- ế
  | 237 => [105, 769]       -- í
  | 243 => [111, 769]       -- ó
  | 244 => [111, 770]       -- ô
  | 417 => [111, 795]       -- ơ
  | 250 => [117, 769]       -- ú
  | 432 => [117, 795]       -- ư
  | 253 => [121, 769]       -- ý
  | 193 => [65, 769]        -- Á
  | 202 => [69, 770]        -- Ê
  | 212 => [79, 770]        -- Ô
  | _ => [c]

/-- `unicodedata.combining(ch) != 0`: the combining diacritical marks block
U+0300–U+036F used by the modelled repertoire. -/
def combiningMark (c : Nat) : Bool := decide (768 ≤ c ∧ c ≤ 879)

/-- Python `str.upper` on one code point of the modelled repertoire
(ASCII letters; points outside the tables are caseless). -/
def upperChar (c : Nat) : Nat :=
  if 97 ≤ c ∧ c ≤ 122 then c - 32 else c

/-- `remove_vietnamese_diacritics`: map `đ/Đ` to `d/D`, decompose to NFD and
drop the combining marks. -/
def remove_vietnamese_diacritics (s : List Nat) : List Nat :=
  (((s.map dBarRepl).flatMap nfdChar).filter (fun c => !combiningMark c))

/-- `transform_name(name, replace_space)`: `-`→`_`, optionally ` `→`_`,
remove diacritics, uppercase. -/
def transform_name (name : List Nat) (replace_space : Bool) : List Nat :=
  let s := name.map hyphenRepl
  let s := if replace_space then s.map spaceRepl else s
  let s := remove_vietnamese_diacritics s
  s.map upperChar

/-- A code point the transform leaves alone: not `-`, ` `, `đ`, `Đ`, no
decomposition, not combining, not lowercase. -/
def CanonChar (c : Nat) : Prop :=
  c ≠ 45 ∧ c ≠ 32 ∧ c ≠ 273 ∧ c ≠ 272 ∧ nfdChar c = [c] ∧
    combiningMark c = false ∧ upperChar c = c

instance (c : Nat) : Decidable (CanonChar c) := by
  unfold CanonChar; infer_instance

lemma nfdChar_small (c : Nat) (h : c < 193) : nfdChar c = [c] := by
  unfold nfdChar
  split <;> first | rfl | omega

/-- Every point of a decomposition is a lowercase ASCII letter, an uppercase
ASCII letter or a combining mark — unless the point does not decompose. -/
lemma nfdChar_mem_ranges (c d : Nat) (hd : d ∈ nfdChar c) :
    (97 ≤ d ∧ d ≤ 122) ∨ (65 ≤ d ∧ d ≤ 90) ∨ (768 ≤ d ∧ d ≤ 879) ∨
      nfdChar c = [c] := by
  unfold nfdChar at hd ⊢
  split at hd <;> simp_all <;> omega

lemma canon_of_AZ (u : Nat) (h : 65 ≤ u ∧ u ≤ 90) : CanonChar u := by
  refine ⟨by omega, by omega, by omega, by omega,
    nfdChar_small u (by omega), ?_, ?_⟩
  · unfold combiningMark; simp; omega
  · unfold upperChar; split_ifs <;> omega

lemma upperChar_canon (d : Nat) (h45 : d ≠ 45) (h32 : d ≠ 32)
    (h273 : d ≠ 273) (h272 : d ≠ 272) (hnfd : nfdChar d = [d])
    (hcomb : combiningMark d = false) : CanonChar (upperChar d) := by
  by_cases hl : 97 ≤ d ∧ d ≤ 122
  · have hu : upperChar d = d - 32 := by unfold upperChar; rw [if_pos hl]
    rw [hu]
    exact canon_of_AZ _ (by omega)
  · have hu : upperChar d = d := by unfold upperChar; rw [if_neg hl]
    rw [hu]
    exact ⟨h45, h32, h273, h272, hnfd, hcomb, hu⟩

/-- The replaced-and-decomposed output of any input code point consists of
canonical points once marks are dropped and case is raised. -/
lemma transform_char_canon (c : Nat) (d : Nat)
    (hd : d ∈ nfdChar (dBarRepl (spaceRepl (hyphenRepl c))))
    (hcomb : combiningMark d = false) : CanonChar (upperChar d) := by
  set c1 := dBarRepl (spaceRepl (hyphenRepl c)) with hc1
  have hne : c1 ≠ 45 ∧ c1 ≠ 32 ∧ c1 ≠ 273 ∧ c1 ≠ 272 := by
    unfold dBarRepl spaceRepl hyphenRepl at hc1
    split_ifs at hc1 <;> omega
  clear_value c1
  rcases nfdChar_mem_ranges c1 d hd with h | h | h | h
  · have hu : upperChar d = d - 32 := by unfold upperChar; rw [if_pos h]
    rw [hu]; exact canon_of_AZ _ (by omega)
  · have hu : upperChar d = d := by
      unfold upperChar; rw [if_neg (by omega)]
    rw [hu]; exact canon_of_AZ _ h
  · exact absurd hcomb (by unfold combiningMark; simp; omega)
  · rw [h] at hd
    simp only [List.mem_singleton] at hd
    subst hd
    exact upperChar_canon _ hne.1 hne.2.1 hne.2.2.1 hne.2.2.2 h hcomb

/-- Every code point of a transformed name is canonical. -/
lemma mem_transform_canon (s : List Nat) (x : Nat)
    (hx : x ∈ transform_name s true) : CanonChar x := by
  unfold transform_name remove_vietnamese_diacritics at hx
  simp only [if_pos] at hx
  rw [List.mem_map] at hx
  obtain ⟨d, hdmem, hx⟩ := hx
  rw [List.mem_filter] at hdmem
  obtain ⟨hdmem, hcomb⟩ := hdmem
  rw [List.mem_flatMap] at hdmem
  obtain ⟨c1, hc1, hd⟩ := hdmem
  rw [List.mem_map] at hc1
  obtain ⟨c2, hc2, hc1eq⟩ := hc1
  rw [List.mem_map] at hc2
  obtain ⟨c3, hc3, hc2eq⟩ := hc2
  rw [List.mem_map] at hc3
  obtain ⟨c0, _, hc3eq⟩ := hc3
  subst hx hc1eq hc2eq hc3eq
  exact transform_char_canon c0 d hd (by simpa using hcomb)

lemma map_id_of_mem {α : Type} (f : α → α) (s : List α)
    (h : ∀ x ∈ s, f x = x) : s.map f = s := by
  induction s with
  | nil => rfl
  | cons a t ih =>
      simp only [List.map_cons, h a (List.mem_cons_self a t)]
      rw [ih (fun x hx => h x (List.mem_cons_of_mem a hx))]

lemma flatMap_id_of_mem {α : Type} (f : α → List α) (s : List α)
    (h : ∀ x ∈ s, f x = [x]) : s.flatMap f = s := by
  induction s with
  | nil => rfl
  | cons a t ih =>
      simp only [List.flatMap_cons, h a (List.mem_cons_self a t)]
      rw [ih (fun x hx => h x (List.mem_cons_of_mem a hx))]
      rfl

/-- The transform is the identity on strings of canonical code points. -/
lemma transform_fixed_of_canon (s : List Nat)
    (h : ∀ x ∈ s, CanonChar x) : transform_name s true = s := by
  unfold transform_name remove_vietnamese_diacritics
  simp only [if_pos]
  rw [map_id_of_mem hyphenRepl s
    (fun x hx => by have := (h x hx).1; unfold hyphenRepl; simp [this])]
  rw [map_id_of_mem spaceRepl s
    (fun x hx => by have := (h x hx).2.1; unfold spaceRepl; simp [this])]
  rw [map_id_of_mem dBarRepl s
    (fun x hx => by
      have h273 := (h x hx).2.2.1
      have h272 := (h x hx).2.2.2.1
      unfold dBarRepl; simp [h273, h272])]
  rw [flatMap_id_of_mem nfdChar s (fun x hx => (h x hx).2.2.2.2.1)]
  rw [List.filter_eq_self.mpr
    (fun x hx => by simp [(h x hx).2.2.2.2.2.1])]
  exact map_id_of_mem upperChar s (fun x hx => (h x hx).2.2.2.2.2.2)

/-- **C3.** The name transform is idempotent with spaces replaced:
`transform(transform(s)) = transform(s)` for every string `s`. -/
theorem transform_name_idempotent (s : List Nat) :
    transform_name (transform_name s true) true = transform_name s true :=
  transform_fixed_of_canon _ (mem_transform_canon s)

/-! ## Filesystem model

A path is its `Path.parts` list, root segment first; a segment is a name as
code points.  The filesystem is an association list from absolute paths to
nodes; `pathlib`/`os`/`shutil` calls become operations on it, and the ones
that can raise `OSError` return `Except Unit FS`. -/

/-- One path segment (one name). -/
abbrev Seg := List Nat

/-- An absolute path, as `Path.parts`. -/
abbrev FsPath := List Seg

/-- A filesystem node: a directory, or a file with its byte content. -/
inductive FsNode where
  | dir : FsNode
  | file : List Nat → FsNode
deriving DecidableEq

/-- The filesystem: an association list of absolute paths and nodes. -/
abbrev FS := List (FsPath × FsNode)

def fsLookup (fs : FS) (p : FsPath) : Option FsNode :=
  match fs with
  | [] => none
  | e :: rest => if e.1 = p then some e.2 else fsLookup rest p

/-- `Path.exists()`. -/
def fsExists (fs : FS) (p : FsPath) : Bool := (fsLookup fs p).isSome

/-- `Path.is_dir()` (false when the path does not exist). -/
def fsIsDir (fs : FS) (p : FsPath) : Bool := fsLookup fs p == some .dir

/-- `Path.is_file()` (false when the path does not exist). -/
def fsIsFile (fs : FS) (p : FsPath) : Bool :=
  match fsLookup fs p with
  | some (.file _) => true
  | _ => false

/-- Re-root every entry under `src` to `dst` (a rename moves the whole
subtree; for a file only the file entry itself has `src` as a prefix). -/
def renameTree (fs : FS) (src dst : FsPath) : FS :=
  fs.map (fun e =>
    if src <+: e.1 then (dst ++ e.1.drop src.length, e.2) else e)

/-- `Path.rename`: raises when the source is missing or the destination
already exists (the engine only renames onto checked-free targets). -/
def fsRename (fs : FS) (src dst : FsPath) : Except Unit FS :=
  if !fsExists fs src then .error ()
  else if fsExists fs dst then .error ()
  else .ok (renameTree fs src dst)

/-- `Path.unlink(missing_ok)`: removes a file entry. -/
def fsUnlink (fs : FS) (p : FsPath) (missing_ok : Bool) : Except Unit FS :=
  match fsLookup fs p with
  | some (.file _) => .ok (fs.filter (fun e => !(e.1 == p)))
  | some .dir => .error ()
  | none => if missing_ok then .ok fs else .error ()

/-- `shutil.rmtree`: removes a directory and everything under it. -/
def fsRmtree (fs : FS) (p : FsPath) : Except Unit FS :=
  if fsIsDir fs p then .ok (fs.filter (fun e => !(decide (p <+: e.1))))
  else .error ()

/-- `Path.rmdir`: removes an empty directory. -/
def fsRmdir (fs : FS) (p : FsPath) : Except Unit FS :=
  if fsIsDir fs p && !(fs.any (fun e => decide (p <+: e.1) && !(e.1 == p)))
  then .ok (fs.filter (fun e => !(e.1 == p)))
  else .error ()

/-- The nonempty prefixes of a path (its ancestors and itself). -/
def ancestorsOf (p : FsPath) : List FsPath :=
  (List.range p.length).map (fun i => p.take (i + 1))

/-- `Path.mkdir(parents=True, exist_ok=True)`: create the missing
directories on the way to `p`. -/
def fsMkdirP (fs : FS) (p : FsPath) : FS :=
  fs ++ ((ancestorsOf p).filter (fun q => !fsExists fs q)).map
    (fun q => (q, FsNode.dir))

/-- `base.rglob("*")`: every path strictly below `base`, in store order
(the on-disk enumeration order is unspecified). -/
def fsRglob (fs : FS) (base : FsPath) : List FsPath :=
  (fs.map (fun e => e.1)).filter
    (fun p => decide (base <+: p) && !(p == base))

/-- `list(src_dir.iterdir())`: the names of the entries directly below a
directory, in store order. -/
def childNames (fs : FS) (d : FsPath) : List Seg :=
  fs.filterMap (fun e =>
    if e.1.length = d.length + 1 ∧ d <+: e.1 then e.1.getLast? else none)

/-! ## Suffix probe (`unique_target_path`) and the decimal formatter -/

/-- Decimal digits of `n`, most significant first, as code points
(models Python's `f"{i}"`). -/
def natCodeAux : Nat → Nat → List Nat
  | 0, n => [48 + n % 10]
  | fuel + 1, n => if n < 10 then [48 + n] else natCodeAux fuel (n / 10) ++ [48 + n % 10]

def natCode (n : Nat) : List Nat := natCodeAux n n

/-- `f"{stem}_{i}"` where `stem` is the full name (95 is `_`). -/
def sfxSeg (name : Seg) (i : Nat) : Seg := name ++ [95] ++ natCode i

/-- `target.parent / f"{target.name}_{i}"`. -/
def sfxPath (target : FsPath) (i : Nat) : FsPath :=
  target.dropLast ++ [sfxSeg (target.getLastD []) i]

/-- The shared `while True` linear probe: try `cand i`, `cand (i+1)`, …
until one does not exist; the fuel only bounds the loop and every caller
passes enough to reach a free name (the store is finite). -/
def probeLoop (ex : FsPath → Bool) (cand : Nat → FsPath) : Nat → Nat → FsPath
  | i, 0 => cand i
  | i, fuel + 1 =>
      if ex (cand i) then probeLoop ex cand (i + 1) fuel
      else cand i

/-- `unique_target_path`: keep the target when free, else append `_1`,
`_2`, … after the full name (even after the extension). -/
def unique_target_path (fs : FS) (target : FsPath) : FsPath :=
  if !fsExists fs target then target
  else probeLoop (fsExists fs) (sfxPath target) 1 (fs.length + 1)

/-! ## Depth filter, enumeration and planning -/

/-- The depth combobox constants. -/
inductive DepthMode where
  | LEVEL1_ONLY | LEVEL2_ONLY | UP_TO_LEVEL2 | ALL
deriving DecidableEq

/-- `len(p.relative_to(base).parts)` for `p` below `base`. -/
def rel_depth (base p : FsPath) : Nat := p.length - base.length

/-- Stable insert for a descending key sort. -/
def insertDesc {α : Type} (key : α → Nat) (x : α) : List α → List α
  | [] => [x]
  | y :: ys =>
      if key x < key y then y :: insertDesc key x ys else x :: y :: ys

/-- Python's stable `list.sort(key=key, reverse=True)`. -/
def sortDesc {α : Type} (key : α → Nat) : List α → List α
  | [] => []
  | x :: xs => insertDesc key x (sortDesc key xs)

/-- `collect_paths_for_bases`: walk each existing base, keep entries that
pass the kind and depth filters, deepest first. -/
def collect_paths_for_bases (fs : FS) (base_dirs : List FsPath)
    (depth_mode : DepthMode) (include_dirs include_files : Bool) :
    List (FsPath × FsPath) :=
  sortDesc (fun t => t.2.length)
    (base_dirs.flatMap (fun base_dir =>
      if !fsExists fs base_dir || !fsIsDir fs base_dir then []
      else
        (fsRglob fs base_dir).filterMap (fun p =>
          let d := rel_depth base_dir p
          if d < 1 then none
          else if fsIsDir fs p && !include_dirs then none
          else if fsIsFile fs p && !include_files then none
          else if depth_mode = .LEVEL1_ONLY ∧ d ≠ 1 then none
          else if depth_mode = .LEVEL2_ONLY ∧ d ≠ 2 then none
          else if depth_mode = .UP_TO_LEVEL2 ∧ d ≠ 1 ∧ d ≠ 2 then none
          else some (base_dir, p))))

/-- `p.with_name(n)`. -/
def withName (p : FsPath) (n : Seg) : FsPath := p.dropLast ++ [n]

/-- `p.name`. -/
def nameOf (p : FsPath) : Seg := p.getLastD []

/-- `compute_plan`: transform each candidate's name, keep the changed ones
as `(base, old, old.with_name(new))`. -/
def compute_plan (items : List (FsPath × FsPath)) (replace_space : Bool) :
    List (FsPath × FsPath × FsPath) :=
  items.filterMap (fun bp =>
    let new_name := transform_name (nameOf bp.2) replace_space
    if new_name ≠ nameOf bp.2 then some (bp.1, bp.2, withName bp.2 new_name)
    else none)

/-! ## Content identity (`_sha256_file`, `_files_identical`) -/

/-- `Path.stat().st_size` (raises when the path is not a file). -/
def fsStatSize (fs : FS) (p : FsPath) : Except Unit Nat :=
  match fsLookup fs p with
  | some (.file content) => .ok content.length
  | _ => .error ()

/-- `_sha256_file`: the streaming digest of a file's bytes, modelled as the
byte stream itself (a collision-free digest). -/
def sha256_file (fs : FS) (p : FsPath) : Except Unit (List Nat) :=
  match fsLookup fs p with
  | some (.file content) => .ok content
  | _ => .error ()

/-- `_files_identical`: sizes first, then digests; any exception gives
`False`. -/
def files_identical (fs : FS) (a b : FsPath) : Bool :=
  match fsStatSize fs a, fsStatSize fs b with
  | .ok sa, .ok sb =>
      if sa ≠ sb then false
      else
        match sha256_file fs a, sha256_file fs b with
        | .ok ha, .ok hb => ha == hb
        | _, _ => false
  | _, _ => false

/-! ## Merge engine (`_merge_move`) -/

/-- The mutable `stats` dict threaded through `_merge_move`. -/
structure MergeStats where
  moved : Nat
  copied : Nat
  renamed_conflict : Nat
  skipped_identical : Nat
  errors : Nat
deriving DecidableEq

def initStats : MergeStats := ⟨0, 0, 0, 0, 0⟩

/-- `shutil.copy2`: copy a file's bytes, overwriting a file at `dst`. -/
def fsCopy2 (fs : FS) (src dst : FsPath) : Except Unit FS :=
  match fsLookup fs src with
  | some (.file c) =>
      match fsLookup fs dst with
      | some .dir => .error ()
      | _ => .ok ((fs.filter (fun e => !(e.1 == dst))) ++ [(dst, .file c)])
  | _ => .error ()

/-- `shutil.copytree(src, dst, dirs_exist_ok=True)`: copy the subtree,
overwriting entries whose copied path already exists. -/
def fsCopytree (fs : FS) (src dst : FsPath) : Except Unit FS :=
  if fsIsDir fs src then
    let copies : FS := fs.filterMap (fun e =>
      if src <+: e.1 then some (dst ++ e.1.drop src.length, e.2) else none)
    .ok ((fs.filter (fun e => !(copies.any (fun c => c.1 == e.1)))) ++ copies)
  else .error ()

/-- `shutil.rmtree(p, ignore_errors=True)`. -/
def fsRmtreeI (fs : FS) (p : FsPath) : FS :=
  match fsRmtree fs p with
  | .ok f => f
  | .error _ => fs

/-- `_unique_in_dir(dst_dir, name)`. -/
def unique_in_dir (fs : FS) (dst_dir : FsPath) (name : Seg) : FsPath :=
  unique_target_path fs (dst_dir ++ [name])

mutual

/-- `_merge_move(src_dir, dst_dir, stats)`: merge the children of `src_dir`
into `dst_dir`, then try to remove the emptied `src_dir` (failure ignored).
The fuel bounds the recursion depth; every caller passes enough for the
finite store. -/
def merge_move : Nat → FS → FsPath → FsPath → MergeStats → FS × MergeStats
  | 0, fs, _, _, st => (fs, st)
  | fuel + 1, fs, src_dir, dst_dir, st =>
      let fs1 := fsMkdirP fs dst_dir
      let r := mergeChildren fuel fs1 src_dir dst_dir st (childNames fs1 src_dir)
      (match fsRmdir r.1 src_dir with
        | .ok f => f
        | .error _ => r.1, r.2)

/-- The `for item in list(src_dir.iterdir())` loop of `_merge_move`. -/
def mergeChildren : Nat → FS → FsPath → FsPath → MergeStats → List Seg →
    FS × MergeStats
  | _, fs, _, _, st, [] => (fs, st)
  | fuel, fs, src_dir, dst_dir, st, name :: rest =>
      let item := src_dir ++ [name]
      let tgt := dst_dir ++ [name]
      let step : FS × MergeStats :=
        if !fsExists fs tgt then
          match fsRename fs item tgt with
          | .ok fs2 => (fs2, { st with moved := st.moved + 1 })
          | .error _ =>
              -- fallback copy if rename fails across devices
              if fsIsDir fs item then
                match fsCopytree fs item tgt with
                | .ok fs2 => (fsRmtreeI fs2 item, { st with copied := st.copied + 1 })
                | .error _ => (fs, { st with errors := st.errors + 1 })
              else
                match fsCopy2 fs item tgt with
                | .ok fs2 =>
                    match fsUnlink fs2 item true with
                    | .ok fs3 => (fs3, { st with copied := st.copied + 1 })
                    | .error _ => (fs2, { st with errors := st.errors + 1 })
                | .error _ => (fs, { st with errors := st.errors + 1 })
        else if fsIsDir fs item && fsIsDir fs tgt then
          let r := merge_move fuel fs item tgt st
          (match fsRmdir r.1 item with
            | .ok f => f
            | .error _ => r.1, r.2)
        else if fsIsFile fs item && fsIsFile fs tgt then
          if files_identical fs item tgt then
            match fsUnlink fs item false with
            | .ok fs2 => (fs2, { st with skipped_identical := st.skipped_identical + 1 })
            | .error _ => (fs, { st with errors := st.errors + 1 })
          else
            let new_tgt := unique_target_path fs tgt
            match fsRename fs item new_tgt with
            | .ok fs2 => (fs2, { st with renamed_conflict := st.renamed_conflict + 1 })
            | .error _ =>
                match fsCopy2 fs item new_tgt with
                | .ok fs2 =>
                    match fsUnlink fs2 item true with
                    | .ok fs3 => (fs3, { st with copied := st.copied + 1 })
                    | .error _ => (fs2, { st with errors := st.errors + 1 })
                | .error _ => (fs, { st with errors := st.errors + 1 })
        else
          -- dir vs file: just place with unique name in dst
          let new_tgt := unique_in_dir fs dst_dir name
          match fsRename fs item new_tgt with
          | .ok fs2 => (fs2, { st with renamed_conflict := st.renamed_conflict + 1 })
          | .error _ =>
              if fsIsDir fs item then
                match fsCopytree fs item new_tgt with
                | .ok fs2 => (fsRmtreeI fs2 item, { st with copied := st.copied + 1 })
                | .error _ => (fs, { st with errors := st.errors + 1 })
              else
                match fsCopy2 fs item new_tgt with
                | .ok fs2 =>
                    match fsUnlink fs2 item true with
                    | .ok fs3 => (fs3, { st with copied := st.copied + 1 })
                    | .error _ => (fs2, { st with errors := st.errors + 1 })
                | .error _ => (fs, { st with errors := st.errors + 1 })
      mergeChildren fuel step.1 src_dir dst_dir step.2 rest

end

/-! ## Apply engine (`apply_renames`) -/

/-- The `conflict_mode` constants `CONFLICT_SUFFIX/DELETE/MERGE`. -/
inductive ConflictMode where
  | SUFFIX | DELETE | MERGE
deriving DecidableEq

/-- The `op` strings recorded in an applied tuple. -/
inductive OpTag where
  | rename | conflict_unique | delete_then_rename | merge
  | merge_skip_identical | merge_unique | error
deriving DecidableEq

/-- A planned operation `(base, old, intended_new)`. -/
abbrev PlanOp := FsPath × FsPath × FsPath

/-- An applied operation `(base, old, intended_new, actual_target, op)`. -/
abbrev AppOp := FsPath × FsPath × FsPath × FsPath × OpTag

/-- The `except` branch of `apply_renames`' loop body: record an `error`
row keeping the original `old` and `intended_new` (and `old` as the actual
target). -/
def errEntry (base old intended : FsPath) : AppOp :=
  (base, old, intended, old, OpTag.error)

/-- The body of `apply_renames`' loop for one planned operation: the new
store and the appended row.  A primitive that raises routes to the
enclosing `except`, keeping the mutations already made. -/
def applyOne (conflict_mode : ConflictMode) (fs : FS) (op : PlanOp) :
    FS × AppOp :=
  match op with
  | (base, old, intended_new) =>
    if conflict_mode = .DELETE ∧ fsExists fs intended_new then
      -- delete existing target before renaming
      let del : Except Unit FS :=
        if fsIsDir fs intended_new then fsRmtree fs intended_new
        else fsUnlink fs intended_new false
      match del with
      | .error _ => (fs, errEntry base old intended_new)
      | .ok fs1 =>
          match fsRename fs1 old intended_new with
          | .ok fs2 => (fs2, (base, old, intended_new, intended_new,
              OpTag.delete_then_rename))
          | .error _ =>
              -- fallback
              let u := unique_target_path fs1 intended_new
              match fsRename fs1 old u with
              | .ok fs2 => (fs2, (base, old, intended_new, u,
                  OpTag.conflict_unique))
              | .error _ => (fs1, errEntry base old intended_new)
    else if conflict_mode = .MERGE ∧ fsExists fs intended_new then
      if fsIsDir fs old && fsIsDir fs intended_new then
        -- directory ↔ directory
        let r := merge_move (fs.length + 1) fs old intended_new initStats
        (r.1, (base, old, intended_new, intended_new, OpTag.merge))
      else if fsIsFile fs old && fsIsFile fs intended_new then
        -- file ↔ file
        if files_identical fs old intended_new then
          match fsUnlink fs old true with
          | .ok fs1 => (fs1, (base, old, intended_new, intended_new,
              OpTag.merge_skip_identical))
          | .error _ => (fs, errEntry base old intended_new)
        else
          let u := unique_target_path fs intended_new
          match fsRename fs old u with
          | .ok fs1 => (fs1, (base, old, intended_new, u, OpTag.merge_unique))
          | .error _ => (fs, errEntry base old intended_new)
      else
        -- mixed types → just place uniquely
        let u := unique_target_path fs intended_new
        match fsRename fs old u with
        | .ok fs1 => (fs1, (base, old, intended_new, u, OpTag.conflict_unique))
        | .error _ => (fs, errEntry base old intended_new)
    else
      -- default and SUFFIX mode
      if fsExists fs intended_new then
        let u := unique_target_path fs intended_new
        match fsRename fs old u with
        | .ok fs1 => (fs1, (base, old, intended_new, u, OpTag.conflict_unique))
        | .error _ => (fs, errEntry base old intended_new)
      else
        match fsRename fs old intended_new with
        | .ok fs1 => (fs1, (base, old, intended_new, intended_new,
            OpTag.rename))
        | .error _ => (fs, errEntry base old intended_new)

/-- `apply_renames(plan, conflict_mode)`: process the plan in order, one
result row per operation, never aborting the batch. -/
def apply_renames (fs : FS) (plan : List PlanOp)
    (conflict_mode : ConflictMode) : FS × List AppOp :=
  match plan with
  | [] => (fs, [])
  | op :: rest =>
      let r1 := applyOne conflict_mode fs op
      let r2 := apply_renames r1.1 rest conflict_mode
      (r2.1, r1.2 :: r2.2)

/-! ## Undo log (`undo_renames`) -/

/-- The undo result strings. -/
inductive UndoTag where
  | undone | missing_actual | skip_merge | error
deriving DecidableEq

/-- An undo row `(from_path, to_path, result)`. -/
abbrev UndoRes := FsPath × FsPath × UndoTag

/-- The order in which `undo_renames` walks the applied rows:
`sorted(applied, key=lambda t: len(t[3].parts), reverse=True)`. -/
def undoOrder (applied : List AppOp) : List AppOp :=
  sortDesc (fun t => t.2.2.2.1.length) applied

/-- One iteration of the undo loop. -/
def undoOne (fs : FS) (e : AppOp) : FS × UndoRes :=
  match e with
  | (_base, old, _intended, actual, op) =>
    if op = .merge ∨ op = .merge_skip_identical ∨ op = .merge_unique then
      (fs, (actual, actual, UndoTag.skip_merge))
    else
      let back_target := if !fsExists fs old then old
        else unique_target_path fs old
      if fsExists fs actual then
        match fsRename fs actual back_target with
        | .ok fs1 => (fs1, (actual, back_target, UndoTag.undone))
        | .error _ => (fs, (actual, old, UndoTag.error))
      else (fs, (actual, back_target, UndoTag.missing_actual))

def undoGo (fs : FS) : List AppOp → FS × List UndoRes
  | [] => (fs, [])
  | e :: rest =>
      let r1 := undoOne fs e
      let r2 := undoGo r1.1 rest
      (r2.1, r1.2 :: r2.2)

/-- `undo_renames(applied)`: walk the rows deepest `actual_target` first,
skip merge rows, rename the others back. -/
def undo_renames (fs : FS) (applied : List AppOp) : FS × List UndoRes :=
  undoGo fs (undoOrder applied)

/-! ## The stable descending sort: order and permutation facts -/

lemma insertDesc_perm {α : Type} (key : α → Nat) (x : α) (l : List α) :
    List.Perm (insertDesc key x l) (x :: l) := by
  induction l with
  | nil => rfl
  | cons y ys ih =>
      simp only [insertDesc]
      split_ifs with h
      · exact ((ih.cons y).trans (List.Perm.swap x y ys))
      · rfl

lemma insertDesc_pairwise {α : Type} (key : α → Nat) (x : α) (l : List α)
    (hl : l.Pairwise (fun a b => key b ≤ key a)) :
    (insertDesc key x l).Pairwise (fun a b => key b ≤ key a) := by
  induction l with
  | nil => simp [insertDesc]
  | cons y ys ih =>
      rw [List.pairwise_cons] at hl
      simp only [insertDesc]
      split_ifs with h
      · rw [List.pairwise_cons]
        refine ⟨fun z hz => ?_, ih hl.2⟩
        have := List.mem_cons.mp ((insertDesc_perm key x ys).mem_iff.mp hz)
        rcases this with rfl | hz'
        · omega
        · exact hl.1 z hz'
      · rw [List.pairwise_cons]
        refine ⟨fun z hz => ?_, List.pairwise_cons.mpr hl⟩
        rcases List.mem_cons.mp hz with rfl | hz'
        · omega
        · have := hl.1 z hz'
          omega

lemma sortDesc_pairwise {α : Type} (key : α → Nat) (l : List α) :
    (sortDesc key l).Pairwise (fun a b => key b ≤ key a) := by
  induction l with
  | nil => exact List.Pairwise.nil
  | cons x xs ih => exact insertDesc_pairwise key x _ ih

lemma sortDesc_perm {α : Type} (key : α → Nat) (l : List α) :
    List.Perm (sortDesc key l) l := by
  induction l with
  | nil => rfl
  | cons x xs ih => exact (insertDesc_perm key x _).trans (ih.cons x)

lemma mem_sortDesc {α : Type} (key : α → Nat) (l : List α) (x : α) :
    x ∈ sortDesc key l ↔ x ∈ l := (sortDesc_perm key l).mem_iff

/-! ## Enumeration facts -/

/-- What membership in `collect_paths_for_bases` gives: the entry comes
from one of the registered bases, lies strictly below it, and passed the
depth test. -/
lemma mem_collect (fs : FS) (bases : List FsPath) (mode : DepthMode)
    (incD incF : Bool) (bp : FsPath × FsPath)
    (h : bp ∈ collect_paths_for_bases fs bases mode incD incF) :
    bp.1 ∈ bases ∧ bp.1 <+: bp.2 ∧ bp.2 ≠ bp.1 ∧ 1 ≤ rel_depth bp.1 bp.2 := by
  unfold collect_paths_for_bases at h
  rw [mem_sortDesc, List.mem_flatMap] at h
  obtain ⟨base, hbase, hmem⟩ := h
  split_ifs at hmem with hb
  · simp at hmem
  · rw [List.mem_filterMap] at hmem
    obtain ⟨p, hp, heq⟩ := hmem
    unfold fsRglob at hp
    rw [List.mem_filter] at hp
    obtain ⟨-, hpp⟩ := hp
    simp only [Bool.and_eq_true, decide_eq_true_eq, Bool.not_eq_eq_eq_not,
      Bool.not_true, beq_eq_false_iff_ne, ne_eq] at hpp
    dsimp only at heq
    split_ifs at heq with h1
    obtain rfl : (base, p) = bp := Option.some.inj heq
    exact ⟨hbase, hpp.1, hpp.2, by dsimp only; omega⟩

/-- **C7.** The plan is ordered deepest first: along the returned list the
source paths' segment counts never increase. -/
theorem plan_sorted_deepest_first (fs : FS) (bases : List FsPath)
    (mode : DepthMode) (incD incF rs : Bool) :
    (compute_plan (collect_paths_for_bases fs bases mode incD incF) rs).Chain'
      (fun a b => b.2.1.length ≤ a.2.1.length) := by
  apply List.Pairwise.chain'
  unfold compute_plan
  rw [List.pairwise_filterMap]
  have hs : (collect_paths_for_bases fs bases mode incD incF).Pairwise
      (fun a b => b.2.length ≤ a.2.length) := by
    unfold collect_paths_for_bases
    exact sortDesc_pairwise _ _
  refine hs.imp ?_
  intro a b hab
  intro x hx y hy
  rw [Option.mem_def] at hx hy
  dsimp only at hx hy
  split_ifs at hx hy with h1 h2
  obtain rfl := Option.some.inj hx
  obtain rfl := Option.some.inj hy
  exact hab

/-- **C9 counterexample.** With nested registered roots (`r` and `r/b-x`),
the scan of `r` yields the root `r/b-x` itself as a candidate, and the
plan renames that registered root. -/
theorem root_renamed_counterexample :
    (compute_plan (collect_paths_for_bases
        [([[114]], FsNode.dir), ([[114], [98, 45, 120]], FsNode.dir)]
        [[[114]], [[114], [98, 45, 120]]] DepthMode.ALL true true) true).map
      (fun op => op.2.1) = [[[114], [98, 45, 120]]] ∧
    [[114], [98, 45, 120]] ∈ [[[114]], [[114], [98, 45, 120]]] := by
  constructor
  · rfl
  · simp

/-- **C9 (amended).** Every candidate lies at depth at least 1 below the
base that yielded it (a root is never a candidate of its own scan); and
when no registered root is a prefix of another, no plan operation renames
a registered root. -/
theorem roots_never_renamed (fs : FS) (bases : List FsPath)
    (mode : DepthMode) (incD incF rs : Bool)
    (hnn : ∀ b ∈ bases, ∀ b' ∈ bases, b <+: b' → b = b') :
    (∀ bp ∈ collect_paths_for_bases fs bases mode incD incF,
        1 ≤ rel_depth bp.1 bp.2 ∧ bp.2 ≠ bp.1) ∧
    (∀ op ∈ compute_plan (collect_paths_for_bases fs bases mode incD incF) rs,
        op.2.1 ∉ bases) := by
  constructor
  · intro bp h
    have hc := mem_collect fs bases mode incD incF bp h
    exact ⟨hc.2.2.2, hc.2.2.1⟩
  · intro op hop hmem
    unfold compute_plan at hop
    rw [List.mem_filterMap] at hop
    obtain ⟨bp, hbp, heq⟩ := hop
    have hc := mem_collect fs bases mode incD incF bp hbp
    have hsrc : op.2.1 = bp.2 := by
      dsimp only at heq
      split_ifs at heq
      rw [← Option.some.inj heq]
    rw [hsrc] at hmem
    exact hc.2.2.1 (hnn bp.1 hc.1 bp.2 hmem hc.2.1).symm

/-- Witness for the amended C9 at concrete non-nested roots. -/
theorem roots_never_renamed_witness :
    (∀ bp ∈ collect_paths_for_bases
        [([[114]], FsNode.dir), ([[114], [97, 45, 98]], FsNode.dir)]
        [[[114]]] DepthMode.ALL true true,
      1 ≤ rel_depth bp.1 bp.2 ∧ bp.2 ≠ bp.1) ∧
    (∀ op ∈ compute_plan (collect_paths_for_bases
        [([[114]], FsNode.dir), ([[114], [97, 45, 98]], FsNode.dir)]
        [[[114]]] DepthMode.ALL true true) true,
      op.2.1 ∉ [[[114]]]) :=
  roots_never_renamed _ _ DepthMode.ALL true true true (by decide)

/-! ## Per-operation facts about the apply engine -/

/-- Every applied row keeps the planned `base`, `old` and `intended_new`,
and an `error` row records the untouched `old` as its actual target. -/
lemma applyOne_fields (m : ConflictMode) (fs : FS) (op : PlanOp) :
    (applyOne m fs op).2.1 = op.1 ∧ (applyOne m fs op).2.2.1 = op.2.1 ∧
    (applyOne m fs op).2.2.2.1 = op.2.2 ∧
    ((applyOne m fs op).2.2.2.2.2 = OpTag.error →
      (applyOne m fs op).2.2.2.2.1 = op.2.1) := by
  obtain ⟨base, old, intended⟩ := op
  unfold applyOne errEntry
  dsimp only
  repeat' split
  all_goals simp

/-- **C8.** An `error` row's actual target is the operation's source path,
not the intended target. -/
theorem error_rows_point_at_source (m : ConflictMode) (fs : FS)
    (plan : List PlanOp) :
    ∀ e ∈ (apply_renames fs plan m).2,
      e.2.2.2.2 = OpTag.error → e.2.2.2.1 = e.2.1 := by
  induction plan generalizing fs with
  | nil => intro e he; simp [apply_renames] at he
  | cons op rest ih =>
      intro e he htag
      simp only [apply_renames, List.mem_cons] at he
      rcases he with rfl | he
      · have hf := applyOne_fields m fs op
        exact (hf.2.2.2 htag).trans hf.2.1.symm
      · exact ih _ e he htag

/-- Witness for C8: a plan whose only operation names a missing source; the
row comes out `error` with the source as actual target. -/
theorem error_rows_point_at_source_witness :
    (([[114]], [[114], [120]], [[114], [121]], [[114], [120]],
        OpTag.error) : AppOp).2.2.2.1 = ([[114], [120]] : FsPath) :=
  error_rows_point_at_source ConflictMode.SUFFIX [([[114]], FsNode.dir)]
    [([[114]], [[114], [120]], [[114], [121]])] _ (by decide) (by decide)

/-! ## C1: the order the undo log is processed in -/

/-- **C1 counterexample.** Two applied rows with actual targets of 2 and 3
segments: undo attempts the deeper row first, not the shallower one. -/
theorem undo_order_counterexample :
    undoOrder
      [([[114]], [[114], [97, 45, 98]], [[114], [65, 95, 66]],
          [[114], [65, 95, 66]], OpTag.rename),
        ([[114]], [[114], [65, 95, 66], [99, 45, 100]],
          [[114], [65, 95, 66], [67, 95, 68]],
          [[114], [65, 95, 66], [67, 95, 68]], OpTag.rename)] =
      [([[114]], [[114], [65, 95, 66], [99, 45, 100]],
          [[114], [65, 95, 66], [67, 95, 68]],
          [[114], [65, 95, 66], [67, 95, 68]], OpTag.rename),
        ([[114]], [[114], [97, 45, 98]], [[114], [65, 95, 66]],
          [[114], [65, 95, 66]], OpTag.rename)] ∧
    ([[114], [65, 95, 66]] : FsPath).length <
      ([[114], [65, 95, 66], [67, 95, 68]] : FsPath).length := by
  constructor
  · rfl
  · decide

/-- **C1 (amended).** `undo_renames` processes the applied rows in
descending segment count of the actual target — deepest first, the same
direction as the apply order, not its reverse. -/
theorem undo_processes_deepest_first (fs : FS) (applied : List AppOp) :
    (undoOrder applied).Pairwise
      (fun a b => b.2.2.2.1.length ≤ a.2.2.2.1.length) ∧
    undo_renames fs applied = undoGo fs (undoOrder applied) :=
  ⟨sortDesc_pairwise _ applied, rfl⟩

/-! ## The decimal formatter is injective, so a free suffixed name exists -/

/-- The number a digit string denotes. -/
def natVal (cs : List Nat) : Nat := cs.foldl (fun a c => 10 * a + (c - 48)) 0

lemma natCodeAux_val (fuel : Nat) : ∀ n : Nat, n ≤ fuel ∨ n < 10 →
    natVal (natCodeAux fuel n) = n := by
  induction fuel with
  | zero =>
      intro n h
      have hn : n < 10 := by omega
      unfold natCodeAux natVal
      simp only [List.foldl_cons, List.foldl_nil]
      omega
  | succ fuel ih =>
      intro n h
      unfold natCodeAux
      split_ifs with h10
      · unfold natVal
        simp only [List.foldl_cons, List.foldl_nil]
        omega
      · unfold natVal
        rw [List.foldl_append]
        have := ih (n / 10) (by omega)
        unfold natVal at this
        rw [this]
        simp only [List.foldl_cons, List.foldl_nil]
        omega

lemma natCode_val (n : Nat) : natVal (natCode n) = n :=
  natCodeAux_val n n (Or.inl le_rfl)

lemma natCode_inj : Function.Injective natCode := by
  intro m n h
  have := natCode_val m
  rw [h, natCode_val] at this
  omega

lemma sfxPath_inj (t : FsPath) : Function.Injective (sfxPath t) := by
  intro i j h
  unfold sfxPath sfxSeg at h
  have h2 := List.append_cancel_left h
  obtain ⟨h3, -⟩ := List.cons.inj h2
  have h4 := List.append_cancel_left h3
  exact natCode_inj h4

lemma fsLookup_cons (e : FsPath × FsNode) (rest : FS) (p : FsPath) :
    fsLookup (e :: rest) p =
      if e.1 = p then some e.2 else fsLookup rest p := rfl

lemma fsExists_iff_mem (fs : FS) (p : FsPath) :
    fsExists fs p = true ↔ p ∈ fs.map Prod.fst := by
  induction fs with
  | nil =>
      constructor
      · intro h; exact absurd h (by unfold fsExists fsLookup; simp)
      · intro h; exact absurd h (by simp)
  | cons e rest ih =>
      unfold fsExists
      rw [fsLookup_cons, List.map_cons, List.mem_cons]
      by_cases heq : e.1 = p
      · rw [if_pos heq]
        constructor
        · intro _; exact Or.inl heq.symm
        · intro _; rfl
      · rw [if_neg heq]
        unfold fsExists at ih
        rw [ih]
        constructor
        · exact Or.inr
        · rintro (h | h)
          · exact absurd h.symm heq
          · exact h

/-- Among the first `fs.length + 1` suffixed candidates one is free. -/
lemma exists_free_sfx (fs : FS) (t : FsPath) :
    ∃ k < fs.length + 1, fsExists fs (sfxPath t (1 + k)) = false := by
  by_contra hc
  push_neg at hc
  have hall : ∀ k < fs.length + 1, sfxPath t (1 + k) ∈ fs.map Prod.fst := by
    intro k hk
    have := hc k hk
    rw [← fsExists_iff_mem]
    cases hex : fsExists fs (sfxPath t (1 + k))
    · exact absurd hex this
    · rfl
  set L := (List.range (fs.length + 1)).map (fun k => sfxPath t (1 + k))
    with hL
  have hnodup : L.Nodup := by
    refine List.Nodup.map ?_ (List.nodup_range _)
    intro i j hij
    have := sfxPath_inj t hij
    omega
  have hsub : L ⊆ fs.map Prod.fst := by
    intro x hx
    rw [hL, List.mem_map] at hx
    obtain ⟨k, hk, rfl⟩ := hx
    exact hall k (List.mem_range.mp hk)
  have hlen := (List.subperm_of_subset hnodup hsub).length_le
  simp [hL] at hlen

/-- What the linear probe returns: the first free candidate at or after the
start index, provided the fuel reaches a free one. -/
lemma probeLoop_spec (ex : FsPath → Bool) (cand : Nat → FsPath) :
    ∀ fuel start, (∃ k < fuel, ex (cand (start + k)) = false) →
      ∃ k < fuel, probeLoop ex cand start fuel = cand (start + k) ∧
        ex (cand (start + k)) = false ∧
        ∀ j, start ≤ j → j < start + k → ex (cand j) = true := by
  intro fuel
  induction fuel with
  | zero => intro start h; omega
  | succ fuel ih =>
      intro start h
      unfold probeLoop
      split_ifs with hex
      · obtain ⟨k, hk, hfree⟩ := h
        have hk0 : k ≠ 0 := by
          intro h0; rw [h0] at hfree; simp at hfree; rw [hfree] at hex
          exact Bool.noConfusion hex
        obtain ⟨k1, hk1, hres, hfree1, hbefore⟩ := ih (start + 1)
          ⟨k - 1, by omega, by
            have : start + 1 + (k - 1) = start + k := by omega
            rw [this]; exact hfree⟩
        refine ⟨k1 + 1, by omega, by
          have : start + (k1 + 1) = start + 1 + k1 := by omega
          rw [this]; exact hres, by
          have : start + (k1 + 1) = start + 1 + k1 := by omega
          rw [this]; exact hfree1, ?_⟩
        intro j hj1 hj2
        rcases Nat.eq_or_lt_of_le hj1 with rfl | hlt
        · exact hex
        · exact hbefore j (by omega) (by omega)
      · exact ⟨0, by omega, by simp, by simpa using hex, by omega⟩

/-- The name `unique_target_path` picks does not exist in the store. -/
lemma unique_target_path_free (fs : FS) (t : FsPath) :
    fsExists fs (unique_target_path fs t) = false := by
  unfold unique_target_path
  split_ifs with h
  · simpa using h
  · obtain ⟨k0, hk0, hfree⟩ := exists_free_sfx fs t
    obtain ⟨k, hk, hres, hfree1, -⟩ :=
      probeLoop_spec (fsExists fs) (sfxPath t) (fs.length + 1) 1
        ⟨k0, hk0, hfree⟩
    rw [hres]; exact hfree1

/-! ## The v12 GUI's inline suffix probe (stem-based) -/

/-- `name.rfind('.')`: the index of the last dot in a name, if any. -/
def lastDotIdx (n : Seg) : Option Nat :=
  ((List.range n.length).filter (fun i => n.get? i == some 46)).getLast?

/-- `Path.stem`: pathlib keeps the whole name when the last dot is leading,
trailing or absent. -/
def segStem (n : Seg) : Seg :=
  match lastDotIdx n with
  | some i => if 0 < i ∧ i < n.length - 1 then n.take i else n
  | none => n

/-- `Path.suffix`. -/
def segExt (n : Seg) : Seg :=
  match lastDotIdx n with
  | some i => if 0 < i ∧ i < n.length - 1 then n.drop i else []
  | none => []

/-- `new.with_name(f"{new.stem}_{i}{new.suffix}")`: the v12 worker's probe
candidate inserts the counter before the extension, not after it. -/
def v12SfxPath (new : FsPath) (i : Nat) : FsPath :=
  withName new (segStem (nameOf new) ++ [95] ++ natCode i ++ segExt (nameOf new))

/-- The v12 worker's inline collision loop:
`cand = new; while cand.exists(): cand = stem_i + ext; i += 1`. -/
def v12Probe (fs : FS) (new : FsPath) : FsPath :=
  if !fsExists fs new then new
  else probeLoop (fsExists fs) (v12SfxPath new) 1 (fs.length + 1)

lemma v12SfxPath_inj (t : FsPath) : Function.Injective (v12SfxPath t) := by
  intro i j h
  unfold v12SfxPath withName at h
  have h2 := List.append_cancel_left h
  obtain ⟨h3, -⟩ := List.cons.inj h2
  have h4 := List.append_cancel_right h3
  have h5 := List.append_cancel_left h4
  exact natCode_inj h5

/-- A free candidate exists among the first `fs.length + 1` names of any
injective candidate family. -/
lemma exists_free_cand (fs : FS) (cand : Nat → FsPath)
    (hinj : Function.Injective cand) :
    ∃ k < fs.length + 1, fsExists fs (cand (1 + k)) = false := by
  by_contra hc
  push_neg at hc
  have hall : ∀ k < fs.length + 1, cand (1 + k) ∈ fs.map Prod.fst := by
    intro k hk
    have := hc k hk
    rw [← fsExists_iff_mem]
    cases hex : fsExists fs (cand (1 + k))
    · exact absurd hex this
    · rfl
  set L := (List.range (fs.length + 1)).map (fun k => cand (1 + k)) with hL
  have hnodup : L.Nodup := by
    refine List.Nodup.map ?_ (List.nodup_range _)
    intro i j hij
    have := hinj hij
    omega
  have hsub : L ⊆ fs.map Prod.fst := by
    intro x hx
    rw [hL, List.mem_map] at hx
    obtain ⟨k, hk, rfl⟩ := hx
    exact hall k (List.mem_range.mp hk)
  have hlen := (List.subperm_of_subset hnodup hsub).length_le
  simp [hL] at hlen

/-- The linear probe's result when the target is taken: the first free
fully-suffixed name. -/
lemma utp_spec (fs : FS) (t : FsPath) (h : fsExists fs t = true) :
    ∃ i, 1 ≤ i ∧ unique_target_path fs t = sfxPath t i ∧
      fsExists fs (sfxPath t i) = false ∧
      ∀ j, 1 ≤ j → j < i → fsExists fs (sfxPath t j) = true := by
  unfold unique_target_path
  rw [if_neg (by simp [h])]
  obtain ⟨k0, hk0, hfree⟩ := exists_free_cand fs (sfxPath t) (sfxPath_inj t)
  obtain ⟨k, hk, hres, hfree1, hbefore⟩ :=
    probeLoop_spec (fsExists fs) (sfxPath t) (fs.length + 1) 1 ⟨k0, hk0, hfree⟩
  exact ⟨1 + k, by omega, hres, hfree1, fun j hj1 hj2 => hbefore j hj1 hj2⟩

/-- The probed name stays in the target's directory with the same segment
count. -/
lemma unique_target_path_shape (fs : FS) (t : FsPath) (h0 : t ≠ []) :
    (unique_target_path fs t).length = t.length ∧
    (unique_target_path fs t).dropLast = t.dropLast := by
  cases hex : fsExists fs t with
  | false =>
      unfold unique_target_path
      rw [if_pos (by simp [hex])]
      exact ⟨rfl, rfl⟩
  | true =>
      obtain ⟨i, -, hres, -, -⟩ := utp_spec fs t hex
      rw [hres]
      unfold sfxPath
      constructor
      · rw [List.length_append, List.length_dropLast]
        have := List.length_pos.mpr h0
        simp
        omega
      · exact List.dropLast_concat

/-! ## C4: the two collision-free-name searches, characterized -/

/-- **C4 counterexample.** With `r/A.TXT` present, the v12 worker's probe
yields `r/A_1.TXT` (counter before the extension) where `unique_target_path`
yields `r/A.TXT_1` (counter after the full name) — the two searches differ,
so the suffix is not always appended to the full intended name. -/
theorem suffix_after_extension_counterexample :
    v12Probe [([[114]], FsNode.dir), ([[114], [65, 46, 84, 88, 84]], FsNode.file [])]
        [[114], [65, 46, 84, 88, 84]] = [[114], [65, 95, 49, 46, 84, 88, 84]] ∧
    unique_target_path
        [([[114]], FsNode.dir), ([[114], [65, 46, 84, 88, 84]], FsNode.file [])]
        [[114], [65, 46, 84, 88, 84]] = [[114], [65, 46, 84, 88, 84, 95, 49]] ∧
    ([[114], [65, 95, 49, 46, 84, 88, 84]] : FsPath) ≠
      [[114], [65, 46, 84, 88, 84, 95, 49]] := by
  refine ⟨by decide, by decide, by decide⟩

/-- **C4 (amended).** Both searches are linear probes whose first probe is
the intended target itself: `unique_target_path` (used by the Suffix
policy, the Delete fallback and Merge's keep-both case) appends `_1`, `_2`,
… to the full name including any extension and returns the first free such
name, and a Suffix-mode collision that succeeds is recorded as
`conflict_unique` (RenamedWithSuffix) at exactly that name; the v12
worker's inline probe instead inserts `_1`, `_2`, … before the extension
(`stem_i.ext`), again returning the first free candidate. -/
theorem suffix_search_characterized (fs : FS) (target : FsPath) :
    (fsExists fs target = false → unique_target_path fs target = target) ∧
    (fsExists fs target = true →
      ∃ i, 1 ≤ i ∧ unique_target_path fs target = sfxPath target i ∧
        fsExists fs (sfxPath target i) = false ∧
        ∀ j, 1 ≤ j → j < i → fsExists fs (sfxPath target j) = true) ∧
    (∀ base old, fsExists fs target = true →
      (applyOne ConflictMode.SUFFIX fs (base, old, target)).2.2.2.2.2 =
          OpTag.error ∨
      ((applyOne ConflictMode.SUFFIX fs (base, old, target)).2.2.2.2.1 =
          unique_target_path fs target ∧
        (applyOne ConflictMode.SUFFIX fs (base, old, target)).2.2.2.2.2 =
          OpTag.conflict_unique)) ∧
    (fsExists fs target = false → v12Probe fs target = target) ∧
    (fsExists fs target = true →
      ∃ i, 1 ≤ i ∧ v12Probe fs target = v12SfxPath target i ∧
        fsExists fs (v12SfxPath target i) = false ∧
        ∀ j, 1 ≤ j → j < i → fsExists fs (v12SfxPath target j) = true) := by
  refine ⟨?_, ?_, ?_, ?_, ?_⟩
  · intro h
    unfold unique_target_path
    rw [if_pos (by simp [h])]
  · intro h
    unfold unique_target_path
    rw [if_neg (by simp [h])]
    obtain ⟨k0, hk0, hfree⟩ := exists_free_cand fs (sfxPath target)
      (sfxPath_inj target)
    obtain ⟨k, hk, hres, hfree1, hbefore⟩ :=
      probeLoop_spec (fsExists fs) (sfxPath target) (fs.length + 1) 1
        ⟨k0, hk0, hfree⟩
    exact ⟨1 + k, by omega, hres, hfree1,
      fun j hj1 hj2 => hbefore j hj1 hj2⟩
  · intro base old h
    unfold applyOne
    dsimp only
    rw [if_neg (by simp), if_neg (by simp), if_pos h]
    cases hr : fsRename fs old (unique_target_path fs target) with
    | ok fs1 => exact Or.inr ⟨rfl, rfl⟩
    | error e => exact Or.inl rfl
  · intro h
    unfold v12Probe
    rw [if_pos (by simp [h])]
  · intro h
    unfold v12Probe
    rw [if_neg (by simp [h])]
    obtain ⟨k0, hk0, hfree⟩ := exists_free_cand fs (v12SfxPath target)
      (v12SfxPath_inj target)
    obtain ⟨k, hk, hres, hfree1, hbefore⟩ :=
      probeLoop_spec (fsExists fs) (v12SfxPath target) (fs.length + 1) 1
        ⟨k0, hk0, hfree⟩
    exact ⟨1 + k, by omega, hres, hfree1,
      fun j hj1 hj2 => hbefore j hj1 hj2⟩

/-! ## Lookup facts for unlink and rename -/

lemma isFile_exists (fs : FS) (p : FsPath) (h : fsIsFile fs p = true) :
    fsExists fs p = true := by
  unfold fsIsFile at h
  unfold fsExists
  cases hl : fsLookup fs p with
  | none => rw [hl] at h; simp at h
  | some n => simp

lemma isFile_not_isDir (fs : FS) (p : FsPath) (h : fsIsFile fs p = true) :
    fsIsDir fs p = false := by
  unfold fsIsFile at h
  unfold fsIsDir
  cases hl : fsLookup fs p with
  | none => rw [hl] at h; simp at h
  | some n =>
      cases n with
      | dir => rw [hl] at h; simp at h
      | file c => simp

lemma isFile_lookup (fs : FS) (p : FsPath) (h : fsIsFile fs p = true) :
    ∃ c, fsLookup fs p = some (FsNode.file c) := by
  unfold fsIsFile at h
  cases hl : fsLookup fs p with
  | none => rw [hl] at h; simp at h
  | some n =>
      cases n with
      | dir => rw [hl] at h; simp at h
      | file c => exact ⟨c, rfl⟩

/-- Removing the entry at `q` does not change lookups elsewhere. -/
lemma fsLookup_filter_ne (fs : FS) (p q : FsPath) (h : p ≠ q) :
    fsLookup (fs.filter (fun e => !(e.1 == q))) p = fsLookup fs p := by
  induction fs with
  | nil => rfl
  | cons e rest ih =>
      rw [List.filter_cons]
      by_cases heq : e.1 = q
      · rw [if_neg (by simp [heq])]
        rw [fsLookup_cons, if_neg (fun hc : e.1 = p => h (hc ▸ heq))]
        exact ih
      · rw [if_pos (by simp [heq]), fsLookup_cons, fsLookup_cons]
        by_cases hep : e.1 = p
        · rw [if_pos hep, if_pos hep]
        · rw [if_neg hep, if_neg hep]
          exact ih

/-- After `renameTree fs src dst` onto a free `dst`, the destination holds
what the source held. -/
lemma fsLookup_renameTree_dst (fs : FS) (src dst : FsPath)
    (hdst : fsExists fs dst = false) :
    fsLookup (renameTree fs src dst) dst = fsLookup fs src := by
  have hnot : ∀ e ∈ fs, e.1 ≠ dst := by
    intro e he hd
    have : fsExists fs dst = true := by
      rw [fsExists_iff_mem, List.mem_map]
      exact ⟨e, he, hd⟩
    rw [this] at hdst
    exact Bool.noConfusion hdst
  clear hdst
  induction fs with
  | nil => rfl
  | cons e rest ih =>
      have hne := hnot e (List.mem_cons_self e rest)
      unfold renameTree
      rw [List.map_cons]
      by_cases hpre : src <+: e.1
      · rw [if_pos hpre]
        by_cases hsrc : e.1 = src
        · subst hsrc
          rw [fsLookup_cons, fsLookup_cons]
          rw [if_pos (by simp), if_pos rfl]
        · have hlong : src.length < e.1.length := by
            rcases Nat.lt_or_ge src.length e.1.length with h | h
            · exact h
            · exact absurd (List.IsPrefix.eq_of_length hpre
                (Nat.le_antisymm (List.IsPrefix.length_le hpre) h))
                (fun he2 => hsrc he2.symm)
          rw [fsLookup_cons, fsLookup_cons]
          rw [if_neg (by
              intro hcontra
              have := congrArg List.length hcontra
              simp at this
              omega),
            if_neg hsrc]
          exact ih (fun x hx => hnot x (List.mem_cons_of_mem e hx))
      · rw [if_neg hpre]
        have hns : e.1 ≠ src := fun h => hpre (h ▸ List.prefix_refl e.1)
        rw [fsLookup_cons, fsLookup_cons, if_neg hne, if_neg hns]
        exact ih (fun x hx => hnot x (List.mem_cons_of_mem e hx))

/-- A path neither under the source nor under the destination is untouched
by `renameTree`. -/
lemma fsLookup_renameTree_other (fs : FS) (src dst p : FsPath)
    (hps : ¬ src <+: p) (hpd : ¬ dst <+: p) :
    fsLookup (renameTree fs src dst) p = fsLookup fs p := by
  induction fs with
  | nil => rfl
  | cons e rest ih =>
      unfold renameTree
      rw [List.map_cons]
      by_cases hpre : src <+: e.1
      · rw [if_pos hpre]
        have hmoved : dst ++ List.drop src.length e.1 ≠ p := by
          intro hcontra
          exact hpd (hcontra ▸ List.prefix_append dst _)
        have horig : e.1 ≠ p := by
          intro hcontra
          exact hps (hcontra ▸ hpre)
        rw [fsLookup_cons, fsLookup_cons, if_neg hmoved, if_neg horig]
        exact ih
      · rw [if_neg hpre]
        by_cases hep : e.1 = p
        · rw [fsLookup_cons, fsLookup_cons, if_pos hep, if_pos hep]
        · rw [fsLookup_cons, fsLookup_cons, if_neg hep, if_neg hep]
          exact ih

/-! ## C6: the batch is best-effort, never aborted, never rolled back -/

/-- **C6.** Whatever the collision policy and however individual operations
fail, `apply_renames` yields exactly one row per planned operation, every
row keeping the planned `base`/`old`/`intended_new` (an exception only
changes the row's outcome to `error`); and a batch is the sequential
composition of its parts — the tail of the plan runs on whatever state the
head left behind, with no rollback. -/
theorem apply_one_row_per_op (m : ConflictMode) (fs : FS)
    (plan : List PlanOp) :
    ((apply_renames fs plan m).2.map (fun e => (e.1, e.2.1, e.2.2.1)) =
      plan) ∧
    (∀ l1 l2 : List PlanOp,
      apply_renames fs (l1 ++ l2) m =
        ((apply_renames (apply_renames fs l1 m).1 l2 m).1,
          (apply_renames fs l1 m).2 ++
            (apply_renames (apply_renames fs l1 m).1 l2 m).2)) := by
  constructor
  · induction plan generalizing fs with
    | nil => rfl
    | cons op rest ih =>
        simp only [apply_renames, List.map_cons]
        have hf := applyOne_fields m fs op
        rw [ih]
        congr 1
        exact Prod.ext hf.1 (Prod.ext hf.2.1 hf.2.2.1)
  · intro l1 l2
    induction l1 generalizing fs with
    | nil => rfl
    | cons op rest ih =>
        simp only [apply_renames, List.cons_append, List.append_eq]
        rw [ih]

/-! ## C5: merging a file onto a file -/

/-- **C5.** A Merge-policy operation on two files (same directory, distinct
names, as the planner produces): when the identity check passes the source
entry is removed, the target entry is untouched and the row says
`merge_skip_identical`; when it fails the source is renamed to the first
free suffixed name next to the target, so both files exist afterwards, and
the row says `merge_unique`. -/
theorem merge_file_file (fs : FS) (base old intended : FsPath)
    (hof : fsIsFile fs old = true) (hif : fsIsFile fs intended = true)
    (hne : old ≠ intended) (hlen : old.length = intended.length)
    (h0 : intended ≠ []) :
    (files_identical fs old intended = true →
      (applyOne ConflictMode.MERGE fs (base, old, intended)).1 =
        fs.filter (fun e => !(e.1 == old)) ∧
      fsLookup (applyOne ConflictMode.MERGE fs (base, old, intended)).1
        intended = fsLookup fs intended ∧
      (applyOne ConflictMode.MERGE fs (base, old, intended)).2 =
        (base, old, intended, intended, OpTag.merge_skip_identical)) ∧
    (files_identical fs old intended = false →
      (applyOne ConflictMode.MERGE fs (base, old, intended)).2 =
        (base, old, intended, unique_target_path fs intended,
          OpTag.merge_unique) ∧
      fsLookup (applyOne ConflictMode.MERGE fs (base, old, intended)).1
        (unique_target_path fs intended) = fsLookup fs old ∧
      fsLookup (applyOne ConflictMode.MERGE fs (base, old, intended)).1
        intended = fsLookup fs intended ∧
      fsExists (applyOne ConflictMode.MERGE fs (base, old, intended)).1
        (unique_target_path fs intended) = true ∧
      fsExists (applyOne ConflictMode.MERGE fs (base, old, intended)).1
        intended = true) := by
  have hex : fsExists fs intended = true := isFile_exists fs intended hif
  have hexo : fsExists fs old = true := isFile_exists fs old hof
  have hdo : fsIsDir fs old = false := isFile_not_isDir fs old hof
  obtain ⟨co, hco⟩ := isFile_lookup fs old hof
  obtain ⟨ci, hci⟩ := isFile_lookup fs intended hif
  have hnp : ¬ old <+: intended := by
    intro hp
    exact hne (List.IsPrefix.eq_of_length hp hlen)
  have hufree := unique_target_path_free fs intended
  have hushape := unique_target_path_shape fs intended h0
  have hune : unique_target_path fs intended ≠ intended := by
    intro hc
    rw [hc, hex] at hufree
    exact Bool.noConfusion hufree
  have hnup : ¬ unique_target_path fs intended <+: intended := by
    intro hp
    exact hune (List.IsPrefix.eq_of_length hp hushape.1)
  unfold applyOne
  dsimp only
  rw [if_neg (by simp), if_pos ⟨rfl, hex⟩, if_neg (by simp [hdo]),
    if_pos (by simp [hof, hif])]
  constructor
  · intro hid
    rw [if_pos hid]
    unfold fsUnlink
    rw [hco]
    refine ⟨rfl, ?_, rfl⟩
    exact fsLookup_filter_ne fs intended old (Ne.symm hne)
  · intro hid
    rw [if_neg (by simp [hid])]
    have hren : fsRename fs old (unique_target_path fs intended) =
        Except.ok (renameTree fs old (unique_target_path fs intended)) := by
      unfold fsRename
      rw [if_neg (by simp [hexo]), if_neg (by simp [hufree])]
    rw [hren]
    refine ⟨rfl, ?_, ?_, ?_, ?_⟩
    · exact fsLookup_renameTree_dst fs old _ hufree
    · exact fsLookup_renameTree_other fs old _ intended hnp hnup
    · unfold fsExists
      rw [fsLookup_renameTree_dst fs old _ hufree, hco]
      rfl
    · unfold fsExists
      rw [fsLookup_renameTree_other fs old _ intended hnp hnup, hci]
      rfl

/-- Witness for C5 at two concrete sibling files with equal content (the
identical branch is exercised; the differing branch holds vacuously). -/
theorem merge_file_file_witness :
    (files_identical
        [([[114]], FsNode.dir), ([[114], [97, 45, 98]], FsNode.file [7]),
          ([[114], [65, 95, 66]], FsNode.file [7])]
        [[114], [97, 45, 98]] [[114], [65, 95, 66]] = true →
      (applyOne ConflictMode.MERGE
          [([[114]], FsNode.dir), ([[114], [97, 45, 98]], FsNode.file [7]),
            ([[114], [65, 95, 66]], FsNode.file [7])]
          ([[114]], [[114], [97, 45, 98]], [[114], [65, 95, 66]])).1 =
        [([[114]], FsNode.dir), ([[114], [97, 45, 98]], FsNode.file [7]),
          ([[114], [65, 95, 66]], FsNode.file [7])].filter
          (fun e => !(e.1 == [[114], [97, 45, 98]])) ∧
      fsLookup (applyOne ConflictMode.MERGE
          [([[114]], FsNode.dir), ([[114], [97, 45, 98]], FsNode.file [7]),
            ([[114], [65, 95, 66]], FsNode.file [7])]
          ([[114]], [[114], [97, 45, 98]], [[114], [65, 95, 66]])).1
        [[114], [65, 95, 66]] =
        fsLookup
          [([[114]], FsNode.dir), ([[114], [97, 45, 98]], FsNode.file [7]),
            ([[114], [65, 95, 66]], FsNode.file [7])]
          [[114], [65, 95, 66]] ∧
      (applyOne ConflictMode.MERGE
          [([[114]], FsNode.dir), ([[114], [97, 45, 98]], FsNode.file [7]),
            ([[114], [65, 95, 66]], FsNode.file [7])]
          ([[114]], [[114], [97, 45, 98]], [[114], [65, 95, 66]])).2 =
        ([[114]], [[114], [97, 45, 98]], [[114], [65, 95, 66]],
          [[114], [65, 95, 66]], OpTag.merge_skip_identical)) ∧
    (files_identical
        [([[114]], FsNode.dir), ([[114], [97, 45, 98]], FsNode.file [7]),
          ([[114], [65, 95, 66]], FsNode.file [7])]
        [[114], [97, 45, 98]] [[114], [65, 95, 66]] = false →
      (applyOne ConflictMode.MERGE
          [([[114]], FsNode.dir), ([[114], [97, 45, 98]], FsNode.file [7]),
            ([[114], [65, 95, 66]], FsNode.file [7])]
          ([[114]], [[114], [97, 45, 98]], [[114], [65, 95, 66]])).2 =
        ([[114]], [[114], [97, 45, 98]], [[114], [65, 95, 66]],
          unique_target_path
            [([[114]], FsNode.dir), ([[114], [97, 45, 98]], FsNode.file [7]),
              ([[114], [65, 95, 66]], FsNode.file [7])]
            [[114], [65, 95, 66]],
          OpTag.merge_unique) ∧
      fsLookup (applyOne ConflictMode.MERGE
          [([[114]], FsNode.dir), ([[114], [97, 45, 98]], FsNode.file [7]),
            ([[114], [65, 95, 66]], FsNode.file [7])]
          ([[114]], [[114], [97, 45, 98]], [[114], [65, 95, 66]])).1
        (unique_target_path
          [([[114]], FsNode.dir), ([[114], [97, 45, 98]], FsNode.file [7]),
            ([[114], [65, 95, 66]], FsNode.file [7])]
          [[114], [65, 95, 66]]) =
        fsLookup
          [([[114]], FsNode.dir), ([[114], [97, 45, 98]], FsNode.file [7]),
            ([[114], [65, 95, 66]], FsNode.file [7])]
          [[114], [97, 45, 98]] ∧
      fsLookup (applyOne ConflictMode.MERGE
          [([[114]], FsNode.dir), ([[114], [97, 45, 98]], FsNode.file [7]),
            ([[114], [65, 95, 66]], FsNode.file [7])]
          ([[114]], [[114], [97, 45, 98]], [[114], [65, 95, 66]])).1
        [[114], [65, 95, 66]] =
        fsLookup
          [([[114]], FsNode.dir), ([[114], [97, 45, 98]], FsNode.file [7]),
            ([[114], [65, 95, 66]], FsNode.file [7])]
          [[114], [65, 95, 66]] ∧
      fsExists (applyOne ConflictMode.MERGE
          [([[114]], FsNode.dir), ([[114], [97, 45, 98]], FsNode.file [7]),
            ([[114], [65, 95, 66]], FsNode.file [7])]
          ([[114]], [[114], [97, 45, 98]], [[114], [65, 95, 66]])).1
        (unique_target_path
          [([[114]], FsNode.dir), ([[114], [97, 45, 98]], FsNode.file [7]),
            ([[114], [65, 95, 66]], FsNode.file [7])]
          [[114], [65, 95, 66]]) = true ∧
      fsExists (applyOne ConflictMode.MERGE
          [([[114]], FsNode.dir), ([[114], [97, 45, 98]], FsNode.file [7]),
            ([[114], [65, 95, 66]], FsNode.file [7])]
          ([[114]], [[114], [97, 45, 98]], [[114], [65, 95, 66]])).1
        [[114], [65, 95, 66]] = true) :=
  merge_file_file _ _ _ _ (by decide) (by decide) (by decide) (by decide)
    (by decide)

/-! ## C10: the content-identity check never lies on a failed read -/

/-- **C10.** `_files_identical` answers `True` exactly when both sizes were
read successfully and are equal and both digests were computed successfully
and are equal — any failed `stat` or read yields `False`, never an
exception; consequently the apply engine's merge branch records
`merge_skip_identical` (deleting the source as a duplicate) only under a
passing identity check, and one merge-engine step on a file child bumps
`skipped_identical` only under a passing identity check. -/
theorem content_identity_spec (fs : FS) (a b : FsPath) :
    (files_identical fs a b = true ↔
      (∃ s, fsStatSize fs a = Except.ok s ∧ fsStatSize fs b = Except.ok s) ∧
      (∃ h, sha256_file fs a = Except.ok h ∧ sha256_file fs b = Except.ok h)) ∧
    (∀ base old intended,
      (applyOne ConflictMode.MERGE fs (base, old, intended)).2.2.2.2.2 =
          OpTag.merge_skip_identical →
        files_identical fs old intended = true) ∧
    (∀ fuel src dst st name,
      fsIsFile fs (src ++ [name]) = true →
      st.skipped_identical <
        (mergeChildren fuel fs src dst st [name]).2.skipped_identical →
        files_identical fs (src ++ [name]) (dst ++ [name]) = true) := by
  refine ⟨?_, ?_, ?_⟩
  · unfold files_identical fsStatSize sha256_file
    cases hla : fsLookup fs a with
    | none => simp
    | some na =>
        cases na with
        | dir => simp
        | file ca =>
            cases hlb : fsLookup fs b with
            | none => simp
            | some nb =>
                cases nb with
                | dir => simp
                | file cb =>
                    dsimp only
                    by_cases hsz : ca.length = cb.length
                    · rw [if_neg (by simp [hsz])]
                      constructor
                      · intro h
                        have hcc : ca = cb := by simpa using h
                        exact ⟨⟨ca.length, rfl, by rw [hsz]⟩,
                          ⟨ca, rfl, by rw [hcc]⟩⟩
                      · rintro ⟨-, ⟨h2, hh2a, hh2b⟩⟩
                        obtain rfl := Except.ok.inj hh2a
                        obtain rfl := Except.ok.inj hh2b
                        simp
                    · rw [if_pos (by simp [hsz])]
                      constructor
                      · intro h; exact Bool.noConfusion h
                      · rintro ⟨⟨s, hsa, hsb⟩, -⟩
                        have h1 := Except.ok.inj hsa
                        have h2 := Except.ok.inj hsb
                        exact absurd (h1.trans h2.symm) hsz
  · intro base old intended htag
    by_contra hid
    rw [Bool.not_eq_true] at hid
    revert htag
    unfold applyOne
    dsimp only
    repeat' split
    all_goals simp_all [errEntry]
  · intro fuel src dst st name hfile hlt
    by_contra hid
    rw [Bool.not_eq_true] at hid
    revert hlt
    unfold mergeChildren
    dsimp only
    have hnd : fsIsDir fs (src ++ [name]) = false :=
      isFile_not_isDir fs (src ++ [name]) hfile
    repeat' split
    all_goals simp_all [mergeChildren, fsRmtreeI]

/-! ## Transform facts for either space setting

The round-trip argument needs that a planned target name — a transform
output, possibly probe-suffixed — is itself transform-fixed, for both
values of `replace_space`. -/

/-- Canonical for the given space setting: with spaces kept, a space is
also left alone by the transform. -/
def CanonCharR (rs : Bool) (c : Nat) : Prop :=
  CanonChar c ∨ (rs = false ∧ c = 32)

lemma canon_32 : nfdChar 32 = [32] ∧ combiningMark 32 = false ∧
    upperChar 32 = 32 := by
  refine ⟨nfdChar_small 32 (by omega), by decide, by decide⟩

lemma mem_transform_canonR (rs : Bool) (s : List Nat) (x : Nat)
    (hx : x ∈ transform_name s rs) : CanonCharR rs x := by
  cases rs with
  | true => exact Or.inl (mem_transform_canon s x hx)
  | false =>
      unfold transform_name remove_vietnamese_diacritics at hx
      simp only [if_neg (by simp : ¬(false = true))] at hx
      rw [List.mem_map] at hx
      obtain ⟨d, hdmem, hx⟩ := hx
      rw [List.mem_filter] at hdmem
      obtain ⟨hdmem, hcomb⟩ := hdmem
      rw [List.mem_flatMap] at hdmem
      obtain ⟨c1, hc1, hd⟩ := hdmem
      rw [List.mem_map] at hc1
      obtain ⟨c2, hc2, hc1eq⟩ := hc1
      rw [List.mem_map] at hc2
      obtain ⟨c0, -, hc2eq⟩ := hc2
      subst hx hc1eq hc2eq
      have hcomb2 : combiningMark d = false := by simpa using hcomb
      have hne : dBarRepl (hyphenRepl c0) ≠ 45 ∧
          dBarRepl (hyphenRepl c0) ≠ 273 ∧ dBarRepl (hyphenRepl c0) ≠ 272 := by
        unfold dBarRepl hyphenRepl
        split_ifs <;> omega
      rcases nfdChar_mem_ranges _ d hd with h | h | h | h
      · have hu : upperChar d = d - 32 := by unfold upperChar; rw [if_pos h]
        refine Or.inl ?_
        rw [hu]
        exact canon_of_AZ _ (by omega)
      · have hu : upperChar d = d := by unfold upperChar; rw [if_neg (by omega)]
        refine Or.inl ?_
        rw [hu]
        exact canon_of_AZ _ h
      · exact absurd hcomb2 (by unfold combiningMark; simp; omega)
      · rw [h] at hd
        simp only [List.mem_singleton] at hd
        subst hd
        by_cases h32 : dBarRepl (hyphenRepl c0) = 32
        · refine Or.inr ⟨rfl, ?_⟩
          rw [h32]
          decide
        · exact Or.inl (upperChar_canon _ hne.1 h32 hne.2.1 hne.2.2 h hcomb2)

lemma transform_fixed_of_canonR (rs : Bool) (s : List Nat)
    (h : ∀ x ∈ s, CanonCharR rs x) : transform_name s rs = s := by
  have h45 : ∀ x ∈ s, x ≠ 45 := by
    intro x hx
    rcases h x hx with hc | ⟨-, rfl⟩
    · exact hc.1
    · omega
  have h273 : ∀ x ∈ s, x ≠ 273 ∧ x ≠ 272 := by
    intro x hx
    rcases h x hx with hc | ⟨-, rfl⟩
    · exact ⟨hc.2.2.1, hc.2.2.2.1⟩
    · omega
  have hnfd : ∀ x ∈ s, nfdChar x = [x] := by
    intro x hx
    rcases h x hx with hc | ⟨-, rfl⟩
    · exact hc.2.2.2.2.1
    · exact canon_32.1
  have hcm : ∀ x ∈ s, combiningMark x = false := by
    intro x hx
    rcases h x hx with hc | ⟨-, rfl⟩
    · exact hc.2.2.2.2.2.1
    · exact canon_32.2.1
  have hup : ∀ x ∈ s, upperChar x = x := by
    intro x hx
    rcases h x hx with hc | ⟨-, rfl⟩
    · exact hc.2.2.2.2.2.2
    · exact canon_32.2.2
  unfold transform_name remove_vietnamese_diacritics
  dsimp only
  rw [map_id_of_mem hyphenRepl s
    (fun x hx => by have := h45 x hx; unfold hyphenRepl; simp [this])]
  have hsp : (if rs = true then s.map spaceRepl else s) = s := by
    cases rs with
    | false => rfl
    | true =>
        rw [if_pos rfl]
        refine map_id_of_mem spaceRepl s (fun x hx => ?_)
        rcases h x hx with hc | ⟨hfalse, -⟩
        · have := hc.2.1; unfold spaceRepl; simp [this]
        · exact Bool.noConfusion hfalse
  rw [hsp]
  rw [map_id_of_mem dBarRepl s
    (fun x hx => by
      have := h273 x hx
      unfold dBarRepl
      simp [this.1, this.2])]
  rw [flatMap_id_of_mem nfdChar s hnfd]
  rw [List.filter_eq_self.mpr (fun x hx => by simp [hcm x hx])]
  exact map_id_of_mem upperChar s hup

/-- Idempotence for either space setting. -/
lemma transform_idemR (rs : Bool) (s : List Nat) :
    transform_name (transform_name s rs) rs = transform_name s rs :=
  transform_fixed_of_canonR rs _ (mem_transform_canonR rs s)

/-- The transform distributes over concatenation. -/
lemma transform_append (rs : Bool) (a b : List Nat) :
    transform_name (a ++ b) rs =
      transform_name a rs ++ transform_name b rs := by
  unfold transform_name remove_vietnamese_diacritics
  dsimp only
  cases rs <;>
    simp [List.map_append, List.flatMap_append, List.filter_append]

lemma natCodeAux_digits (fuel : Nat) : ∀ n d, d ∈ natCodeAux fuel n →
    48 ≤ d ∧ d ≤ 57 := by
  induction fuel with
  | zero =>
      intro n d hd
      unfold natCodeAux at hd
      simp only [List.mem_singleton] at hd
      subst hd
      have := Nat.mod_lt n (show 0 < 10 by omega)
      omega
  | succ fuel ih =>
      intro n d hd
      unfold natCodeAux at hd
      split_ifs at hd with h10
      · simp only [List.mem_singleton] at hd
        omega
      · rw [List.mem_append] at hd
        rcases hd with hd | hd
        · exact ih _ _ hd
        · simp only [List.mem_singleton] at hd
          subst hd
          have := Nat.mod_lt n (show 0 < 10 by omega)
          omega

lemma canon_digit (d : Nat) (h1 : 48 ≤ d) (h2 : d ≤ 57) : CanonChar d := by
  refine ⟨by omega, by omega, by omega, by omega,
    nfdChar_small d (by omega), ?_, ?_⟩
  · unfold combiningMark; simp; omega
  · unfold upperChar; split_ifs <;> omega

/-- A transform-fixed name stays fixed after the probe's `_i` suffix. -/
lemma transform_fixed_sfxSeg (rs : Bool) (nm : Seg) (i : Nat)
    (hnm : transform_name nm rs = nm) :
    transform_name (sfxSeg nm i) rs = sfxSeg nm i := by
  unfold sfxSeg
  rw [transform_append, transform_append, hnm]
  congr 1
  congr 1
  · refine transform_fixed_of_canonR rs [95] (fun x hx => ?_)
    simp only [List.mem_singleton] at hx
    subst hx
    exact Or.inl (by decide)
  · refine transform_fixed_of_canonR rs (natCode i) (fun x hx => ?_)
    have := natCodeAux_digits i i x hx
    exact Or.inl (canon_digit x this.1 this.2)

/-! ## Round-trip machinery: a batch of sibling subtree rewrites

An applied Suffix batch is, extensionally, a set of `(source, actual)`
subtree rewrites over the original store; undoing removes the rewrites one
by one.  `applyMoves` applies such a set to one original path (at most one
source matches, the sources being pairwise prefix-free), and `mapFS`
applies it to the whole original store. -/

abbrev Moves := List (FsPath × FsPath)

def applyMoves (M : Moves) (p : FsPath) : FsPath :=
  match M with
  | [] => p
  | mv :: rest =>
      if mv.1 <+: p then mv.2 ++ p.drop mv.1.length else applyMoves rest p

def mapFS (M : Moves) (fs : FS) : FS :=
  fs.map (fun e => (applyMoves M e.1, e.2))

/-- Every nonempty proper prefix of a stored path is stored (real
directory trees satisfy this: ancestors exist). -/
def PrefixClosed (paths0 : List FsPath) : Prop :=
  ∀ p ∈ paths0, ∀ n, n < p.length → n ≠ 0 → p.take n ∈ paths0

instance instDecPrefixClosed (paths0 : List FsPath) :
    Decidable (PrefixClosed paths0) :=
  inferInstanceAs (Decidable
    (∀ p ∈ paths0, ∀ n, n < p.length → n ≠ 0 → p.take n ∈ paths0))

/-- The invariant of one batch of rewrites over the original paths: each
source was stored, each actual target is fresh and a sibling of its
source, sources are pairwise prefix-free and actuals pairwise distinct. -/
structure MovesOK (paths0 : List FsPath) (M : Moves) : Prop where
  src_mem : ∀ mv ∈ M, mv.1 ∈ paths0
  act_fresh : ∀ mv ∈ M, mv.2 ∉ paths0
  src_ne : ∀ mv ∈ M, mv.1 ≠ []
  act_ne : ∀ mv ∈ M, mv.2 ≠ []
  sib : ∀ mv ∈ M, mv.2.dropLast = mv.1.dropLast
  pw : M.Pairwise (fun mv mv' =>
    (¬ mv.1 <+: mv'.1 ∧ ¬ mv'.1 <+: mv.1) ∧ mv.2 ≠ mv'.2)

lemma mapFS_nil (fs : FS) : mapFS [] fs = fs := by
  unfold mapFS applyMoves
  simp

lemma mapFS_paths (M : Moves) (fs : FS) :
    (mapFS M fs).map Prod.fst = (fs.map Prod.fst).map (applyMoves M) := by
  unfold mapFS
  rw [List.map_map, List.map_map]
  rfl

lemma fsExists_mapFS (M : Moves) (fs : FS) (q : FsPath) :
    fsExists (mapFS M fs) q = true ↔
      ∃ p ∈ fs.map Prod.fst, applyMoves M p = q := by
  rw [fsExists_iff_mem, mapFS_paths, List.mem_map]

lemma applyMoves_not_under (M : Moves) (p : FsPath)
    (h : ∀ mv ∈ M, ¬ mv.1 <+: p) : applyMoves M p = p := by
  induction M with
  | nil => rfl
  | cons mv rest ih =>
      unfold applyMoves
      rw [if_neg (h mv (List.mem_cons_self mv rest))]
      exact ih (fun x hx => h x (List.mem_cons_of_mem mv hx))

lemma applyMoves_of_unique (M : Moves) (p : FsPath) (mv : FsPath × FsPath)
    (hm : mv ∈ M) (hup : mv.1 <+: p)
    (huniq : ∀ mv' ∈ M, mv'.1 <+: p → mv' = mv) :
    applyMoves M p = mv.2 ++ p.drop mv.1.length := by
  induction M with
  | nil => exact absurd hm (by simp)
  | cons h rest ih =>
      unfold applyMoves
      by_cases hh : h.1 <+: p
      · rw [if_pos hh]
        rw [huniq h (List.mem_cons_self h rest) hh]
      · rw [if_neg hh]
        rcases List.mem_cons.mp hm with rfl | hm'
        · exact absurd hup hh
        · exact ih hm' (fun x hx hxp =>
            huniq x (List.mem_cons_of_mem h hx) hxp)

/-- With pairwise prefix-free sources, at most one rewrite matches. -/
lemma match_unique (M : Moves)
    (hpw : M.Pairwise (fun mv mv' =>
      (¬ mv.1 <+: mv'.1 ∧ ¬ mv'.1 <+: mv.1) ∧ mv.2 ≠ mv'.2))
    (p : FsPath) (mv mv' : FsPath × FsPath) (hm : mv ∈ M) (hm' : mv' ∈ M)
    (hup : mv.1 <+: p) (hup' : mv'.1 <+: p) : mv' = mv := by
  by_contra hne
  have hsymm : Symmetric (fun mv mv' : FsPath × FsPath =>
      (¬ mv.1 <+: mv'.1 ∧ ¬ mv'.1 <+: mv.1) ∧ mv.2 ≠ mv'.2) := by
    intro x y hxy
    exact ⟨⟨hxy.1.2, hxy.1.1⟩, Ne.symm hxy.2⟩
  have hrel := List.Pairwise.forall hsymm hpw hm' hm hne
  rcases List.prefix_or_prefix_of_prefix hup hup' with h | h
  · exact hrel.1.2 h
  · exact hrel.1.1 h

lemma applyMoves_perm (M M' : Moves) (hperm : List.Perm M M')
    (hpw : M.Pairwise (fun mv mv' =>
      (¬ mv.1 <+: mv'.1 ∧ ¬ mv'.1 <+: mv.1) ∧ mv.2 ≠ mv'.2))
    (p : FsPath) : applyMoves M p = applyMoves M' p := by
  by_cases hex : ∃ mv ∈ M, mv.1 <+: p
  · obtain ⟨mv, hm, hup⟩ := hex
    rw [applyMoves_of_unique M p mv hm hup
      (fun x hx hxp => match_unique M hpw p mv x hm hx hup hxp)]
    rw [applyMoves_of_unique M' p mv (hperm.mem_iff.mp hm) hup
      (fun x hx hxp => match_unique M hpw p mv x hm
        (hperm.mem_iff.mpr hx) hup hxp)]
  · push_neg at hex
    rw [applyMoves_not_under M p hex,
      applyMoves_not_under M' p (fun x hx => hex x (hperm.mem_iff.mpr hx))]

/-- A prefix strictly shorter than a path is a prefix of the path without
its last segment. -/
lemma prefix_dropLast (l p : FsPath) (h : l <+: p) (hlen : l.length < p.length) :
    l <+: p.dropLast := by
  rw [List.prefix_iff_eq_take] at h
  rw [List.dropLast_eq_take]
  rw [h]
  rw [List.prefix_iff_eq_take, List.take_take, List.length_take]
  congr 1
  omega

/-- A fresh sibling name is never a prefix of a stored path. -/
lemma fresh_not_pref (paths0 : List FsPath) (hP : PrefixClosed paths0)
    (a p : FsPath) (ha : a ∉ paths0) (ha0 : a ≠ []) (hp : p ∈ paths0) :
    ¬ a <+: p := by
  intro hpre
  by_cases heq : a = p
  · exact ha (heq ▸ hp)
  · have hlen : a.length < p.length := by
      rcases Nat.lt_or_ge a.length p.length with h | h
      · exact h
      · exact absurd (hpre.eq_of_length
          (Nat.le_antisymm hpre.length_le h)) heq
    have htake : p.take a.length = a := by
      rw [List.prefix_iff_eq_take] at hpre
      exact hpre.symm
    have := hP p hp a.length hlen
      (by intro h0; rw [h0] at htake; simp at htake; exact ha0 htake)
    rw [htake] at this
    exact ha this

lemma prefix_concat_cases (l x y : FsPath) (h : l <+: x ++ y) :
    l <+: x ∨ x <+: l := by
  rcases Nat.le_total l.length x.length with hl | hl
  · exact Or.inl (List.prefix_of_prefix_length_le h (List.prefix_append x y) hl)
  · exact Or.inr (List.prefix_of_prefix_length_le (List.prefix_append x y) h hl)

/-- A stored path that is not a prefix of a rewrite's source is not a
prefix of its fresh sibling actual either. -/
lemma src_not_prefix_act (paths0 : List FsPath) (_hP : PrefixClosed paths0)
    (s a s' : FsPath) (hsib : a.dropLast = s.dropLast) (hfresh : a ∉ paths0)
    (hs' : s' ∈ paths0) (hns : ¬ s' <+: s) : ¬ s' <+: a := by
  intro hpre
  by_cases heq : s' = a
  · exact hfresh (heq ▸ hs')
  · have hlen : s'.length < a.length := by
      rcases Nat.lt_or_ge s'.length a.length with h | h
      · exact h
      · exact absurd (hpre.eq_of_length
          (Nat.le_antisymm hpre.length_le h)) heq
    have h1 := prefix_dropLast s' a hpre hlen
    rw [hsib] at h1
    exact hns (h1.trans (List.dropLast_prefix s))

/-- A fresh sibling actual is never a prefix of another rewrite's fresh
sibling actual. -/
lemma act_not_prefix_act (paths0 : List FsPath) (hP : PrefixClosed paths0)
    (a s' a' : FsPath) (hfresh : a ∉ paths0) (ha0 : a ≠ [])
    (hs' : s' ∈ paths0) (hsib' : a'.dropLast = s'.dropLast) (hne : a ≠ a') :
    ¬ a <+: a' := by
  intro hpre
  have hlen : a.length < a'.length := by
    rcases Nat.lt_or_ge a.length a'.length with h | h
    · exact h
    · exact absurd (hpre.eq_of_length
        (Nat.le_antisymm hpre.length_le h)) hne
  have h1 := prefix_dropLast a a' hpre hlen
  rw [hsib'] at h1
  exact fresh_not_pref paths0 hP a s' hfresh ha0 hs'
    (h1.trans (List.dropLast_prefix s'))

lemma applyMoves_cons (mv : FsPath × FsPath) (rest : Moves) (p : FsPath) :
    applyMoves (mv :: rest) p =
      if mv.1 <+: p then mv.2 ++ p.drop mv.1.length
      else applyMoves rest p := rfl

lemma applyMoves_append_not (M M2 : Moves) (p : FsPath)
    (h : ∀ mv ∈ M, ¬ mv.1 <+: p) :
    applyMoves (M ++ M2) p = applyMoves M2 p := by
  induction M with
  | nil => rfl
  | cons mv rest ih =>
      rw [List.cons_append, applyMoves_cons,
        if_neg (h mv (List.mem_cons_self mv rest))]
      exact ih (fun x hx => h x (List.mem_cons_of_mem mv hx))

/-- Appending one more rewrite to the batch is a `renameTree` over the
store the batch produced (Lemma B of the round trip). -/
lemma applyMoves_snoc_point (paths0 : List FsPath) (hP : PrefixClosed paths0)
    (M : Moves) (s a : FsPath) (hok : MovesOK paths0 (M ++ [(s, a)]))
    (p : FsPath) (_hp : p ∈ paths0) :
    applyMoves (M ++ [(s, a)]) p =
      (if s <+: applyMoves M p then a ++ (applyMoves M p).drop s.length
        else applyMoves M p) := by
  have hpwM : M.Pairwise _ := (List.pairwise_append.mp hok.pw).1
  have hcross := (List.pairwise_append.mp hok.pw).2.2
  have hsa : (s, a) ∈ M ++ [(s, a)] := by simp
  by_cases hex : ∃ mv ∈ M, mv.1 <+: p
  · obtain ⟨mv, hm, hup⟩ := hex
    have hmv : mv ∈ M ++ [(s, a)] := List.mem_append_left _ hm
    have huniq : ∀ mv' ∈ M ++ [(s, a)], mv'.1 <+: p → mv' = mv := by
      intro mv' hmv' hup'
      rcases List.mem_append.mp hmv' with hmv' | hmv'
      · exact match_unique M hpwM p mv mv' hm hmv' hup hup'
      · simp only [List.mem_singleton] at hmv'
        subst hmv'
        exfalso
        have hrel := hcross mv hm (s, a) (by simp)
        rcases List.prefix_or_prefix_of_prefix hup hup' with h | h
        · exact hrel.1.1 h
        · exact hrel.1.2 h
    rw [applyMoves_of_unique _ p mv hmv hup huniq]
    rw [applyMoves_of_unique M p mv hm hup
      (fun x hx hxp => match_unique M hpwM p mv x hm hx hup hxp)]
    rw [if_neg ?hnpre]
    case hnpre =>
      intro hpre
      have hrel := hcross mv hm (s, a) (by simp)
      rcases prefix_concat_cases s mv.2 _ hpre with h | h
      · exact src_not_prefix_act paths0 hP mv.1 mv.2 s
          (hok.sib mv hmv) (hok.act_fresh mv hmv)
          (hok.src_mem (s, a) hsa) hrel.1.2 h
      · exact fresh_not_pref paths0 hP mv.2 s (hok.act_fresh mv hmv)
          (hok.act_ne mv hmv) (hok.src_mem (s, a) hsa) h
  · push_neg at hex
    rw [applyMoves_append_not M [(s, a)] p hex,
      applyMoves_not_under M p hex]
    rfl

/-- Undoing the head rewrite of the batch is a `renameTree` back onto the
source (Lemma C of the round trip). -/
lemma applyMoves_uncons_point (paths0 : List FsPath)
    (hP : PrefixClosed paths0) (s a : FsPath) (M : Moves)
    (hok : MovesOK paths0 ((s, a) :: M)) (p : FsPath) (hp : p ∈ paths0) :
    (if a <+: applyMoves ((s, a) :: M) p then
        s ++ (applyMoves ((s, a) :: M) p).drop a.length
      else applyMoves ((s, a) :: M) p) = applyMoves M p := by
  have hpwM : M.Pairwise _ := (List.pairwise_cons.mp hok.pw).2
  have hhead := (List.pairwise_cons.mp hok.pw).1
  have hsa : (s, a) ∈ (s, a) :: M := List.mem_cons_self _ _
  by_cases hs : s <+: p
  · have h1 : applyMoves ((s, a) :: M) p = a ++ p.drop s.length := by
      unfold applyMoves
      rw [if_pos hs]
    rw [h1, if_pos (List.prefix_append a _), List.drop_left]
    rw [List.prefix_iff_eq_append.mp hs]
    symm
    apply applyMoves_not_under
    intro mv hm hpre
    have hrel := hhead mv hm
    rcases List.prefix_or_prefix_of_prefix hs hpre with h | h
    · exact hrel.1.1 h
    · exact hrel.1.2 h
  · have h1 : applyMoves ((s, a) :: M) p = applyMoves M p := by
      rw [applyMoves_cons, if_neg hs]
    rw [h1]
    by_cases hex : ∃ mv ∈ M, mv.1 <+: p
    · obtain ⟨mv, hm, hup⟩ := hex
      have hmM : mv ∈ (s, a) :: M := List.mem_cons_of_mem _ hm
      rw [applyMoves_of_unique M p mv hm hup
        (fun x hx hxp => match_unique M hpwM p mv x hm hx hup hxp)]
      rw [if_neg ?hnpre2]
      case hnpre2 =>
        intro hpre
        have hrel := hhead mv hm
        rcases prefix_concat_cases a mv.2 _ hpre with h | h
        · by_cases heq : a = mv.2
          · exact hrel.2 heq
          · exact act_not_prefix_act paths0 hP a mv.1 mv.2
              (hok.act_fresh (s, a) hsa) (hok.act_ne (s, a) hsa)
              (hok.src_mem mv hmM) (hok.sib mv hmM) heq h
        · by_cases heq : mv.2 = a
          · exact hrel.2 heq.symm
          · exact act_not_prefix_act paths0 hP mv.2 s a
              (hok.act_fresh mv hmM) (hok.act_ne mv hmM)
              (hok.src_mem (s, a) hsa) (hok.sib (s, a) hsa) heq h
    · push_neg at hex
      rw [applyMoves_not_under M p hex]
      rw [if_neg (fresh_not_pref paths0 hP a p
        (hok.act_fresh (s, a) hsa) (hok.act_ne (s, a) hsa) hp)]

/-- Lemma B at the store level. -/
lemma mapFS_snoc (paths0 : List FsPath) (hP : PrefixClosed paths0)
    (fs : FS) (hfs : ∀ e ∈ fs, e.1 ∈ paths0) (M : Moves) (s a : FsPath)
    (hok : MovesOK paths0 (M ++ [(s, a)])) :
    mapFS (M ++ [(s, a)]) fs = renameTree (mapFS M fs) s a := by
  unfold mapFS renameTree
  rw [List.map_map]
  apply List.map_congr_left
  intro e he
  have := applyMoves_snoc_point paths0 hP M s a hok e.1 (hfs e he)
  simp only [Function.comp]
  rw [this]
  split_ifs with h
  · rfl
  · rfl

/-- Lemma C at the store level. -/
lemma mapFS_uncons (paths0 : List FsPath) (hP : PrefixClosed paths0)
    (fs : FS) (hfs : ∀ e ∈ fs, e.1 ∈ paths0) (s a : FsPath) (M : Moves)
    (hok : MovesOK paths0 ((s, a) :: M)) :
    renameTree (mapFS ((s, a) :: M) fs) a s = mapFS M fs := by
  unfold mapFS renameTree
  rw [List.map_map]
  apply List.map_congr_left
  intro e he
  have := applyMoves_uncons_point paths0 hP s a M hok e.1 (hfs e he)
  simp only [Function.comp]
  rw [← this]
  split_ifs with h
  · rfl
  · rfl

/-- During undo, the head rewrite's actual target is present… -/
lemma exists_actual (paths0 : List FsPath) (fs : FS)
    (hfs : fs.map Prod.fst = paths0) (s a : FsPath) (M : Moves)
    (hok : MovesOK paths0 ((s, a) :: M)) :
    fsExists (mapFS ((s, a) :: M) fs) a = true := by
  rw [fsExists_mapFS]
  refine ⟨s, by rw [hfs]; exact hok.src_mem (s, a) (List.mem_cons_self _ _), ?_⟩
  unfold applyMoves
  rw [if_pos (List.prefix_refl s), List.drop_length, List.append_nil]

/-- …and its original source slot is free. -/
lemma not_exists_src (paths0 : List FsPath) (hP : PrefixClosed paths0)
    (fs : FS) (hfs : fs.map Prod.fst = paths0) (s a : FsPath) (M : Moves)
    (hok : MovesOK paths0 ((s, a) :: M)) :
    fsExists (mapFS ((s, a) :: M) fs) s = false := by
  have hsa : (s, a) ∈ (s, a) :: M := List.mem_cons_self _ _
  cases hex : fsExists (mapFS ((s, a) :: M) fs) s with
  | false => rfl
  | true =>
      exfalso
      rw [fsExists_mapFS, hfs] at hex
      obtain ⟨p, hp, himg⟩ := hex
      by_cases hsp : s <+: p
      · have himg' : applyMoves ((s, a) :: M) p = a ++ p.drop s.length := by
          unfold applyMoves
          rw [if_pos hsp]
        rw [himg'] at himg
        have hapre : a <+: s := by
          rw [← himg]
          exact List.prefix_append a _
        exact fresh_not_pref paths0 hP a s (hok.act_fresh (s, a) hsa)
          (hok.act_ne (s, a) hsa) (hok.src_mem (s, a) hsa) hapre
      · have himg' : applyMoves ((s, a) :: M) p = applyMoves M p := by
          rw [applyMoves_cons, if_neg hsp]
        rw [himg'] at himg
        by_cases hexm : ∃ mv ∈ M, mv.1 <+: p
        · obtain ⟨mv, hm, hup⟩ := hexm
          have hpwM : M.Pairwise _ := (List.pairwise_cons.mp hok.pw).2
          rw [applyMoves_of_unique M p mv hm hup
            (fun x hx hxp => match_unique M hpwM p mv x hm hx hup hxp)]
            at himg
          have hmpre : mv.2 <+: s := by
            rw [← himg]
            exact List.prefix_append mv.2 _
          exact fresh_not_pref paths0 hP mv.2 s
            (hok.act_fresh mv (List.mem_cons_of_mem _ hm))
            (hok.act_ne mv (List.mem_cons_of_mem _ hm))
            (hok.src_mem (s, a) hsa) hmpre
        · push_neg at hexm
          rw [applyMoves_not_under M p hexm] at himg
          exact hsp (himg ▸ List.prefix_refl s)

lemma mapFS_perm (M M' : Moves) (hperm : List.Perm M M')
    (hpw : M.Pairwise (fun mv mv' =>
      (¬ mv.1 <+: mv'.1 ∧ ¬ mv'.1 <+: mv.1) ∧ mv.2 ≠ mv'.2))
    (fs : FS) : mapFS M fs = mapFS M' fs := by
  unfold mapFS
  apply List.map_congr_left
  intro e _he
  rw [applyMoves_perm M M' hperm hpw e.1]

lemma movesOK_perm (paths0 : List FsPath) (M M' : Moves)
    (hperm : List.Perm M M') (hok : MovesOK paths0 M) :
    MovesOK paths0 M' := by
  have hsymm : Symmetric (fun mv mv' : FsPath × FsPath =>
      (¬ mv.1 <+: mv'.1 ∧ ¬ mv'.1 <+: mv.1) ∧ mv.2 ≠ mv'.2) := by
    intro x y h
    exact ⟨⟨h.1.2, h.1.1⟩, h.2.symm⟩
  exact ⟨fun mv hm => hok.src_mem mv (hperm.mem_iff.mpr hm),
    fun mv hm => hok.act_fresh mv (hperm.mem_iff.mpr hm),
    fun mv hm => hok.src_ne mv (hperm.mem_iff.mpr hm),
    fun mv hm => hok.act_ne mv (hperm.mem_iff.mpr hm),
    fun mv hm => hok.sib mv (hperm.mem_iff.mpr hm),
    (hperm.pairwise_iff (fun h => hsymm h)).mp hok.pw⟩

lemma movesOK_tail (paths0 : List FsPath) (mv : FsPath × FsPath) (M : Moves)
    (hok : MovesOK paths0 (mv :: M)) : MovesOK paths0 M :=
  ⟨fun x hx => hok.src_mem x (List.mem_cons_of_mem mv hx),
    fun x hx => hok.act_fresh x (List.mem_cons_of_mem mv hx),
    fun x hx => hok.src_ne x (List.mem_cons_of_mem mv hx),
    fun x hx => hok.act_ne x (List.mem_cons_of_mem mv hx),
    fun x hx => hok.sib x (List.mem_cons_of_mem mv hx),
    (List.pairwise_cons.mp hok.pw).2⟩

lemma nameOf_concat (l : FsPath) (x : Seg) : nameOf (l ++ [x]) = x := by
  unfold nameOf
  simp

lemma nameOf_sfxPath (t : FsPath) (i : Nat) :
    nameOf (sfxPath t i) = sfxSeg (nameOf t) i := by
  unfold sfxPath
  rw [nameOf_concat]
  rfl

lemma utp_cases (fs : FS) (t : FsPath) :
    unique_target_path fs t = t ∨
      ∃ i, 1 ≤ i ∧ unique_target_path fs t = sfxPath t i := by
  cases hex : fsExists fs t with
  | false =>
      left
      unfold unique_target_path
      rw [if_pos (by simp [hex])]
  | true =>
      right
      obtain ⟨i, hi, hres, -, -⟩ := utp_spec fs t hex
      exact ⟨i, hi, hres⟩

/-- The probed target's name is transform-fixed whenever the intended name
is. -/
lemma utp_name_fixed (rs : Bool) (fs : FS) (t : FsPath)
    (hfix : transform_name (nameOf t) rs = nameOf t) :
    transform_name (nameOf (unique_target_path fs t)) rs =
      nameOf (unique_target_path fs t) := by
  rcases utp_cases fs t with h | ⟨i, -, h⟩
  · rw [h]
    exact hfix
  · rw [h, nameOf_sfxPath]
    exact transform_fixed_sfxSeg rs (nameOf t) i hfix

lemma fsRename_ok (fs : FS) (src dst : FsPath)
    (hsrc : fsExists fs src = true) (hdst : fsExists fs dst = false) :
    fsRename fs src dst = .ok (renameTree fs src dst) := by
  unfold fsRename
  rw [hsrc, hdst]
  rfl

/-- In SUFFIX mode, an operation whose source exists always renames the
source onto the probe's free name (the intended target itself when free). -/
lemma applyOne_suffix_eq (fs : FS) (base old intended : FsPath)
    (hsrc : fsExists fs old = true) :
    applyOne .SUFFIX fs (base, old, intended) =
      (renameTree fs old (unique_target_path fs intended),
        (base, old, intended, unique_target_path fs intended,
          if fsExists fs intended then OpTag.conflict_unique
          else OpTag.rename)) := by
  unfold applyOne
  dsimp only
  rw [if_neg (show ¬(ConflictMode.SUFFIX = ConflictMode.DELETE ∧
      fsExists fs intended = true) from fun hc => ConflictMode.noConfusion hc.1)]
  rw [if_neg (show ¬(ConflictMode.SUFFIX = ConflictMode.MERGE ∧
      fsExists fs intended = true) from fun hc => ConflictMode.noConfusion hc.1)]
  cases hex : fsExists fs intended with
  | true =>
      rw [if_pos rfl, if_pos rfl]
      rw [fsRename_ok fs old (unique_target_path fs intended) hsrc
        (unique_target_path_free fs intended)]
  | false =>
      have hne : ¬ (false = true) := by simp
      have hu : unique_target_path fs intended = intended := by
        unfold unique_target_path
        rw [if_pos (by simp [hex])]
      rw [if_neg hne, if_neg hne, hu,
        fsRename_ok fs old intended hsrc hex]

/-- When the intended target is free, DELETE mode behaves exactly like
SUFFIX mode on that operation. -/
lemma applyOne_delete_free (fs : FS) (op : PlanOp)
    (h : fsExists fs op.2.2 = false) :
    applyOne .DELETE fs op = applyOne .SUFFIX fs op := by
  obtain ⟨base, old, intended⟩ := op
  dsimp only at h
  unfold applyOne
  dsimp only
  rw [if_neg (show ¬(ConflictMode.DELETE = ConflictMode.DELETE ∧
      fsExists fs intended = true) from
      fun hc => by rw [h] at hc; exact Bool.noConfusion hc.2)]
  rw [if_neg (show ¬(ConflictMode.DELETE = ConflictMode.MERGE ∧
      fsExists fs intended = true) from fun hc => ConflictMode.noConfusion hc.1)]
  rw [if_neg (show ¬(ConflictMode.SUFFIX = ConflictMode.DELETE ∧
      fsExists fs intended = true) from fun hc => ConflictMode.noConfusion hc.1)]
  rw [if_neg (show ¬(ConflictMode.SUFFIX = ConflictMode.MERGE ∧
      fsExists fs intended = true) from fun hc => ConflictMode.noConfusion hc.1)]

/-- A DELETE-mode row tagged plain `rename` can only come from a free
intended target. -/
lemma applyOne_delete_tag (fs : FS) (op : PlanOp)
    (h : (applyOne .DELETE fs op).2.2.2.2.2 = OpTag.rename) :
    fsExists fs op.2.2 = false := by
  by_contra hc
  rw [Bool.not_eq_false] at hc
  obtain ⟨base, old, intended⟩ := op
  unfold applyOne at h
  dsimp only at h
  rw [if_pos (show ConflictMode.DELETE = ConflictMode.DELETE ∧
      fsExists fs intended = true from ⟨rfl, hc⟩)] at h
  split at h
  · simp [errEntry] at h
  · split at h
    · simp at h
    · split at h
      · simp at h
      · simp [errEntry] at h

/-- The `(source, actual)` rewrite a non-error applied row performs. -/
def rowMove (e : AppOp) : FsPath × FsPath := (e.2.1, e.2.2.2.1)

/-- What the enumeration and planning pipeline guarantees about each
planned operation. -/
structure PlanOpOK (rs : Bool) (paths0 : List FsPath) (op : PlanOp) : Prop where
  src_mem : op.2.1 ∈ paths0
  src_ne : op.2.1 ≠ []
  shape : op.2.2 = op.2.1.dropLast ++ [transform_name (nameOf op.2.1) rs]
  changed : transform_name (nameOf op.2.1) rs ≠ nameOf op.2.1

lemma mem_collect_store (fs : FS) (bases : List FsPath) (mode : DepthMode)
    (incD incF : Bool) (bp : FsPath × FsPath)
    (h : bp ∈ collect_paths_for_bases fs bases mode incD incF) :
    bp.2 ∈ fs.map Prod.fst := by
  unfold collect_paths_for_bases at h
  rw [mem_sortDesc, List.mem_flatMap] at h
  obtain ⟨base, hbase, hmem⟩ := h
  split_ifs at hmem with hb
  · simp at hmem
  · rw [List.mem_filterMap] at hmem
    obtain ⟨p, hp, heq⟩ := hmem
    unfold fsRglob at hp
    rw [List.mem_filter] at hp
    dsimp only at heq
    split_ifs at heq with h1
    obtain rfl : (base, p) = bp := Option.some.inj heq
    exact hp.1

lemma mem_compute_plan (items : List (FsPath × FsPath)) (rs : Bool)
    (op : PlanOp) (h : op ∈ compute_plan items rs) :
    (op.1, op.2.1) ∈ items ∧
    op.2.2 = op.2.1.dropLast ++ [transform_name (nameOf op.2.1) rs] ∧
    transform_name (nameOf op.2.1) rs ≠ nameOf op.2.1 := by
  unfold compute_plan at h
  rw [List.mem_filterMap] at h
  obtain ⟨bp, hbp, heq⟩ := h
  dsimp only at heq
  split_ifs at heq with h1
  obtain rfl : (bp.1, bp.2, withName bp.2 (transform_name (nameOf bp.2) rs))
      = op := Option.some.inj heq
  exact ⟨by simpa using hbp, rfl, h1⟩

/-- Every operation the pipeline plans satisfies `PlanOpOK`. -/
lemma planOpOK_of_pipeline (fs : FS) (bases : List FsPath) (mode : DepthMode)
    (incD incF rs : Bool) (op : PlanOp)
    (h : op ∈ compute_plan (collect_paths_for_bases fs bases mode incD incF) rs) :
    PlanOpOK rs (fs.map Prod.fst) op := by
  obtain ⟨hitems, hshape, hchanged⟩ := mem_compute_plan _ rs op h
  have hstore := mem_collect_store fs bases mode incD incF _ hitems
  have hcoll := mem_collect fs bases mode incD incF _ hitems
  refine ⟨hstore, ?_, hshape, hchanged⟩
  have : 1 ≤ rel_depth op.1 op.2.1 := hcoll.2.2.2
  unfold rel_depth at this
  intro hnil
  rw [hnil] at this
  simp at this

lemma apply_renames_cons (fs : FS) (op : PlanOp) (rest : List PlanOp)
    (m : ConflictMode) :
    apply_renames fs (op :: rest) m =
      ((apply_renames (applyOne m fs op).1 rest m).1,
        (applyOne m fs op).2 ::
          (apply_renames (applyOne m fs op).1 rest m).2) := rfl

/-- **Apply phase.** Running the SUFFIX engine over a batch of planned
operations with pairwise prefix-incomparable sources turns the store into
`mapFS` of the accumulated `(source, actual)` rewrites, keeps one row per
operation tagged `renamed`/`conflict_unique`, and the accumulated rewrites
stay a well-formed batch. -/
lemma apply_phase (rs : Bool) (paths0 : List FsPath) (hP : PrefixClosed paths0)
    (fs0 : FS) (hfs0 : fs0.map Prod.fst = paths0) :
    ∀ (ops : List PlanOp) (M : Moves),
      (∀ op ∈ ops, PlanOpOK rs paths0 op) →
      ops.Pairwise (fun o o' => ¬ o.2.1 <+: o'.2.1 ∧ ¬ o'.2.1 <+: o.2.1) →
      MovesOK paths0 M →
      (∀ mv ∈ M, transform_name (nameOf mv.1) rs ≠ nameOf mv.1) →
      (∀ mv ∈ M, ∀ op ∈ ops, ¬ mv.1 <+: op.2.1 ∧ ¬ op.2.1 <+: mv.1) →
      (apply_renames (mapFS M fs0) ops .SUFFIX).1 =
        mapFS (M ++ (apply_renames (mapFS M fs0) ops .SUFFIX).2.map rowMove)
          fs0 ∧
      (apply_renames (mapFS M fs0) ops .SUFFIX).2.map (fun e => e.2.1) =
        ops.map (fun o => o.2.1) ∧
      MovesOK paths0
        (M ++ (apply_renames (mapFS M fs0) ops .SUFFIX).2.map rowMove) ∧
      (∀ mv ∈ M ++ (apply_renames (mapFS M fs0) ops .SUFFIX).2.map rowMove,
        transform_name (nameOf mv.1) rs ≠ nameOf mv.1) ∧
      (∀ e ∈ (apply_renames (mapFS M fs0) ops .SUFFIX).2,
        e.2.2.2.2 = OpTag.rename ∨ e.2.2.2.2 = OpTag.conflict_unique) := by
  intro ops
  induction ops with
  | nil =>
      intro M _hops _hpair hok hMnm _hMops
      refine ⟨by simp [apply_renames], rfl, ?_, ?_, by simp [apply_renames]⟩
      · simpa [apply_renames] using hok
      · simpa [apply_renames] using hMnm
  | cons op rest ih =>
      intro M hops hpair hok hMnm hMops
      obtain ⟨base, old, intended⟩ := op
      have hop : PlanOpOK rs paths0 (base, old, intended) :=
        hops _ (List.mem_cons_self _ _)
      have hop_shape : intended =
          old.dropLast ++ [transform_name (nameOf old) rs] := hop.shape
      have hmem_head : (base, old, intended) ∈ (base, old, intended) :: rest :=
        List.mem_cons_self _ _
      have hfs0' : ∀ e ∈ fs0, e.1 ∈ paths0 := by
        intro e he
        rw [← hfs0]
        exact List.mem_map_of_mem _ he
      -- the source still sits at its original path
      have hnotM : ∀ mv ∈ M, ¬ mv.1 <+: old := by
        intro mv hm
        exact (hMops mv hm _ hmem_head).1
      have hsrc : fsExists (mapFS M fs0) old = true := by
        rw [fsExists_mapFS]
        exact ⟨old, by rw [hfs0]; exact hop.src_mem,
          applyMoves_not_under M old hnotM⟩
      -- the probed actual target
      have hint_ne : intended ≠ [] := by
        rw [hop_shape]
        simp
      have hshape := unique_target_path_shape (mapFS M fs0) intended hint_ne
      have hadrop : (unique_target_path (mapFS M fs0) intended).dropLast =
          old.dropLast := by
        rw [hshape.2, hop_shape]
        exact List.dropLast_concat
      have ha_ne : unique_target_path (mapFS M fs0) intended ≠ [] := by
        intro hnil
        have := hshape.1
        rw [hnil] at this
        have hpos := List.length_pos.mpr hint_ne
        simp at this
        omega
      have hafree := unique_target_path_free (mapFS M fs0) intended
      have hafix : transform_name
          (nameOf (unique_target_path (mapFS M fs0) intended)) rs =
          nameOf (unique_target_path (mapFS M fs0) intended) := by
        refine utp_name_fixed rs _ intended ?_
        rw [hop_shape, nameOf_concat]
        exact transform_idemR rs (nameOf old)
      have hafresh : unique_target_path (mapFS M fs0) intended ∉ paths0 := by
        intro hain
        have hnone : ∀ mv ∈ M,
            ¬ mv.1 <+: unique_target_path (mapFS M fs0) intended := by
          intro mv hm hpre
          by_cases heq : mv.1 = unique_target_path (mapFS M fs0) intended
          · exact (hMnm mv hm) (by rw [heq]; exact hafix)
          · have hlen : mv.1.length <
                (unique_target_path (mapFS M fs0) intended).length :=
              lt_of_le_of_ne hpre.length_le
                (fun hl => heq (hpre.eq_of_length hl))
            have h1 := prefix_dropLast _ _ hpre hlen
            rw [hadrop] at h1
            exact (hMops mv hm _ hmem_head).1
              (h1.trans (List.dropLast_prefix old))
        have : fsExists (mapFS M fs0)
            (unique_target_path (mapFS M fs0) intended) = true := by
          rw [fsExists_mapFS]
          exact ⟨_, by rw [hfs0]; exact hain, applyMoves_not_under M _ hnone⟩
        rw [hafree] at this
        exact Bool.noConfusion this
      have hactex : ∀ mv ∈ M, fsExists (mapFS M fs0) mv.2 = true := by
        intro mv hm
        rw [fsExists_mapFS]
        refine ⟨mv.1, by rw [hfs0]; exact hok.src_mem mv hm, ?_⟩
        rw [applyMoves_of_unique M mv.1 mv hm (List.prefix_refl _)
          (fun x hx hxp => match_unique M hok.pw mv.1 mv x hm hx
            (List.prefix_refl _) hxp)]
        rw [List.drop_length, List.append_nil]
      -- the extended batch is well-formed
      have hok' : MovesOK paths0
          (M ++ [(old, unique_target_path (mapFS M fs0) intended)]) := by
        refine ⟨?_, ?_, ?_, ?_, ?_, ?_⟩
        · intro mv hm
          rcases List.mem_append.mp hm with hm | hm
          · exact hok.src_mem mv hm
          · simp only [List.mem_singleton] at hm
            rw [hm]
            exact hop.src_mem
        · intro mv hm
          rcases List.mem_append.mp hm with hm | hm
          · exact hok.act_fresh mv hm
          · simp only [List.mem_singleton] at hm
            rw [hm]
            exact hafresh
        · intro mv hm
          rcases List.mem_append.mp hm with hm | hm
          · exact hok.src_ne mv hm
          · simp only [List.mem_singleton] at hm
            rw [hm]
            exact hop.src_ne
        · intro mv hm
          rcases List.mem_append.mp hm with hm | hm
          · exact hok.act_ne mv hm
          · simp only [List.mem_singleton] at hm
            rw [hm]
            exact ha_ne
        · intro mv hm
          rcases List.mem_append.mp hm with hm | hm
          · exact hok.sib mv hm
          · simp only [List.mem_singleton] at hm
            rw [hm]
            exact hadrop
        · rw [List.pairwise_append]
          refine ⟨hok.pw, List.pairwise_singleton _ _, ?_⟩
          intro mv hm y hy
          simp only [List.mem_singleton] at hy
          subst hy
          refine ⟨hMops mv hm _ hmem_head, ?_⟩
          intro heq
          have := hactex mv hm
          rw [heq, hafree] at this
          exact Bool.noConfusion this
      -- one engine step, then the induction hypothesis on the extended batch
      have happ1 := applyOne_suffix_eq (mapFS M fs0) base old intended hsrc
      have hstep : renameTree (mapFS M fs0) old
          (unique_target_path (mapFS M fs0) intended) =
          mapFS (M ++ [(old, unique_target_path (mapFS M fs0) intended)])
            fs0 :=
        (mapFS_snoc paths0 hP fs0 hfs0' M old _ hok').symm
      have hMnm' : ∀ mv ∈ M ++
          [(old, unique_target_path (mapFS M fs0) intended)],
          transform_name (nameOf mv.1) rs ≠ nameOf mv.1 := by
        intro mv hm
        rcases List.mem_append.mp hm with hm | hm
        · exact hMnm mv hm
        · simp only [List.mem_singleton] at hm
          rw [hm]
          exact hop.changed
      have hMops' : ∀ mv ∈ M ++
          [(old, unique_target_path (mapFS M fs0) intended)],
          ∀ op' ∈ rest, ¬ mv.1 <+: op'.2.1 ∧ ¬ op'.2.1 <+: mv.1 := by
        intro mv hm op' hop'
        rcases List.mem_append.mp hm with hm | hm
        · exact hMops mv hm op' (List.mem_cons_of_mem _ hop')
        · simp only [List.mem_singleton] at hm
          rw [hm]
          exact (List.pairwise_cons.mp hpair).1 op' hop'
      obtain ⟨ih1, ih2, ih3, ih4, ih5⟩ :=
        ih (M ++ [(old, unique_target_path (mapFS M fs0) intended)])
          (fun op' h' => hops op' (List.mem_cons_of_mem _ h'))
          (List.pairwise_cons.mp hpair).2 hok' hMnm' hMops'
      have hunf : apply_renames (mapFS M fs0) ((base, old, intended) :: rest)
          .SUFFIX =
          ((apply_renames (mapFS
              (M ++ [(old, unique_target_path (mapFS M fs0) intended)]) fs0)
              rest .SUFFIX).1,
            (base, old, intended, unique_target_path (mapFS M fs0) intended,
              if fsExists (mapFS M fs0) intended then OpTag.conflict_unique
              else OpTag.rename) ::
            (apply_renames (mapFS
              (M ++ [(old, unique_target_path (mapFS M fs0) intended)]) fs0)
              rest .SUFFIX).2) := by
        rw [apply_renames_cons, happ1]
        dsimp only
        rw [hstep]
      rw [hunf]
      dsimp only
      rw [List.append_assoc] at ih1 ih3 ih4
      refine ⟨ih1, ?_, ih3, ih4, ?_⟩
      · rw [List.map_cons, List.map_cons, ih2]
      · intro e he
        rcases List.mem_cons.mp he with rfl | he'
        · dsimp only
          split
          · exact Or.inr rfl
          · exact Or.inl rfl
        · exact ih5 e he'

lemma undoGo_cons (fs : FS) (e : AppOp) (rest : List AppOp) :
    undoGo fs (e :: rest) =
      ((undoGo (undoOne fs e).1 rest).1,
        (undoOne fs e).2 :: (undoGo (undoOne fs e).1 rest).2) := rfl

/-- **Undo phase.** Undoing a well-formed batch of rows one by one peels
the rewrites off and restores the original store, logging
`(actual, source, undone)` for every row. -/
lemma undo_phase (paths0 : List FsPath) (hP : PrefixClosed paths0)
    (fs0 : FS) (hfs0 : fs0.map Prod.fst = paths0) :
    ∀ rows : List AppOp,
      MovesOK paths0 (rows.map rowMove) →
      (∀ e ∈ rows,
        e.2.2.2.2 = OpTag.rename ∨ e.2.2.2.2 = OpTag.conflict_unique) →
      undoGo (mapFS (rows.map rowMove) fs0) rows =
        (fs0, rows.map (fun e => (e.2.2.2.1, e.2.1, UndoTag.undone))) := by
  have hfs0' : ∀ e ∈ fs0, e.1 ∈ paths0 := by
    intro e he
    rw [← hfs0]
    exact List.mem_map_of_mem _ he
  intro rows
  induction rows with
  | nil =>
      intro _ _
      rw [List.map_nil, mapFS_nil]
      rfl
  | cons e rest ih =>
      intro hok htags
      obtain ⟨base, old, intended, actual, tag⟩ := e
      have hM : ((base, old, intended, actual, tag) :: rest).map rowMove =
          (old, actual) :: rest.map rowMove := rfl
      rw [hM] at hok
      have htag := htags _ (List.mem_cons_self _ _)
      have hnotmerge : ¬(tag = OpTag.merge ∨ tag = OpTag.merge_skip_identical ∨
          tag = OpTag.merge_unique) := by
        rcases htag with h | h <;> rw [show
            ((base, old, intended, actual, tag) : AppOp).2.2.2.2 = tag
          from rfl] at h <;> rw [h] <;>
          rintro (h2 | h2 | h2) <;> exact OpTag.noConfusion h2
      have hnold := not_exists_src paths0 hP fs0 hfs0 old actual
        (rest.map rowMove) hok
      have hact := exists_actual paths0 fs0 hfs0 old actual
        (rest.map rowMove) hok
      have hstep : undoOne (mapFS ((old, actual) :: rest.map rowMove) fs0)
          (base, old, intended, actual, tag) =
          (mapFS (rest.map rowMove) fs0, (actual, old, UndoTag.undone)) := by
        unfold undoOne
        dsimp only
        rw [if_neg hnotmerge, hnold, hact]
        simp only [Bool.not_false, eq_self_iff_true, if_true]
        rw [fsRename_ok _ actual old hact hnold]
        rw [mapFS_uncons paths0 hP fs0 hfs0' old actual
          (rest.map rowMove) hok]
      rw [show ((base, old, intended, actual, tag) :: rest).map rowMove =
        (old, actual) :: rest.map rowMove from rfl]
      rw [undoGo_cons, hstep]
      rw [ih (movesOK_tail paths0 (old, actual) _ hok)
        (fun x hx => htags x (List.mem_cons_of_mem _ hx))]
      rfl

/-- When every applied row of a DELETE batch came out as a plain rename,
the DELETE run coincides with the SUFFIX run. -/
lemma apply_delete_all_rename :
    ∀ (plan : List PlanOp) (fs : FS),
      (∀ e ∈ (apply_renames fs plan .DELETE).2, e.2.2.2.2 = OpTag.rename) →
      apply_renames fs plan .DELETE = apply_renames fs plan .SUFFIX := by
  intro plan
  induction plan with
  | nil =>
      intro fs _
      rfl
  | cons op rest ih =>
      intro fs htags
      rw [apply_renames_cons] at htags
      dsimp only at htags
      have h1 : (applyOne .DELETE fs op).2.2.2.2.2 = OpTag.rename :=
        htags _ (List.mem_cons_self _ _)
      have heq := applyOne_delete_free fs op (applyOne_delete_tag fs op h1)
      rw [apply_renames_cons, apply_renames_cons, heq]
      rw [heq] at htags
      rw [ih (applyOne .SUFFIX fs op).1
        (fun x hx => htags x (List.mem_cons_of_mem _ hx))]

/-- One full enumerate-and-plan pipeline run: `compute_plan` over
`collect_paths_for_bases`. -/
def pipelinePlan (fs : FS) (bases : List FsPath) (mode : DepthMode)
    (incD incF rs : Bool) : List PlanOp :=
  compute_plan (collect_paths_for_bases fs bases mode incD incF) rs

/-- The SUFFIX-mode round trip, assembled from the apply and undo phases. -/
lemma round_trip_suffix (fs0 : FS) (bases : List FsPath) (mode : DepthMode)
    (incD incF rs : Bool) (hP : PrefixClosed (fs0.map Prod.fst))
    (hpf : (pipelinePlan fs0 bases mode incD incF rs).Pairwise
      (fun o o' => ¬ o.2.1 <+: o'.2.1 ∧ ¬ o'.2.1 <+: o.2.1)) :
    (undo_renames
        (apply_renames fs0 (pipelinePlan fs0 bases mode incD incF rs)
          .SUFFIX).1
        (apply_renames fs0 (pipelinePlan fs0 bases mode incD incF rs)
          .SUFFIX).2).1 = fs0 ∧
    (undo_renames
        (apply_renames fs0 (pipelinePlan fs0 bases mode incD incF rs)
          .SUFFIX).1
        (apply_renames fs0 (pipelinePlan fs0 bases mode incD incF rs)
          .SUFFIX).2).2 =
      (undoOrder (apply_renames fs0
          (pipelinePlan fs0 bases mode incD incF rs) .SUFFIX).2).map
        (fun e => (e.2.2.2.1, e.2.1, UndoTag.undone)) := by
  have hops : ∀ op ∈ pipelinePlan fs0 bases mode incD incF rs,
      PlanOpOK rs (fs0.map Prod.fst) op :=
    fun op h => planOpOK_of_pipeline fs0 bases mode incD incF rs op h
  have hok0 : MovesOK (fs0.map Prod.fst) [] :=
    ⟨fun mv hm => absurd hm (List.not_mem_nil mv),
      fun mv hm => absurd hm (List.not_mem_nil mv),
      fun mv hm => absurd hm (List.not_mem_nil mv),
      fun mv hm => absurd hm (List.not_mem_nil mv),
      fun mv hm => absurd hm (List.not_mem_nil mv), List.Pairwise.nil⟩
  obtain ⟨h1, h2, h3, h4, h5⟩ :=
    apply_phase rs (fs0.map Prod.fst) hP fs0 rfl
      (pipelinePlan fs0 bases mode incD incF rs) [] hops hpf hok0
      (fun mv hm => absurd hm (List.not_mem_nil mv))
      (fun mv hm => absurd hm (List.not_mem_nil mv))
  rw [mapFS_nil] at h1 h3 h5
  rw [List.nil_append] at h1 h3
  have hperm : List.Perm
      (undoOrder (apply_renames fs0
        (pipelinePlan fs0 bases mode incD incF rs) .SUFFIX).2)
      (apply_renames fs0
        (pipelinePlan fs0 bases mode incD incF rs) .SUFFIX).2 :=
    sortDesc_perm _ _
  have hpermM := (hperm.map rowMove).symm
  have hokR := movesOK_perm (fs0.map Prod.fst) _ _ hpermM h3
  have hstore : (apply_renames fs0
      (pipelinePlan fs0 bases mode incD incF rs) .SUFFIX).1 =
      mapFS ((undoOrder (apply_renames fs0
        (pipelinePlan fs0 bases mode incD incF rs) .SUFFIX).2).map rowMove)
        fs0 := by
    rw [h1]
    exact mapFS_perm _ _ hpermM h3.pw fs0
  have htagsR : ∀ e ∈ undoOrder (apply_renames fs0
      (pipelinePlan fs0 bases mode incD incF rs) .SUFFIX).2,
      e.2.2.2.2 = OpTag.rename ∨ e.2.2.2.2 = OpTag.conflict_unique :=
    fun e he => h5 e (hperm.mem_iff.mp he)
  have hundo := undo_phase (fs0.map Prod.fst) hP fs0 rfl
    (undoOrder (apply_renames fs0
      (pipelinePlan fs0 bases mode incD incF rs) .SUFFIX).2) hokR htagsR
  rw [← hstore] at hundo
  unfold undo_renames
  rw [hundo]
  exact ⟨rfl, rfl⟩

/-- **C2 (amended).**  Over a prefix-closed store whose planned sources are
pairwise prefix-incomparable, a batch applied under SUFFIX — or under
DELETE when every applied row came out as a plain `rename` — is fully
rolled back by undo: the store returns exactly to its pre-batch contents,
every undo row is `(actualTarget, source, undone)` (walked deepest actual
first), and re-enumerating the same roots with the same filters reproduces
the original candidate list. -/
theorem round_trip_restores (fs0 : FS) (bases : List FsPath)
    (mode : DepthMode) (incD incF rs : Bool) (m : ConflictMode)
    (hP : PrefixClosed (fs0.map Prod.fst))
    (hpf : (pipelinePlan fs0 bases mode incD incF rs).Pairwise
      (fun o o' => ¬ o.2.1 <+: o'.2.1 ∧ ¬ o'.2.1 <+: o.2.1))
    (hm : m = ConflictMode.SUFFIX ∨ (m = ConflictMode.DELETE ∧
      ∀ e ∈ (apply_renames fs0 (pipelinePlan fs0 bases mode incD incF rs)
        m).2, e.2.2.2.2 = OpTag.rename)) :
    (undo_renames
        (apply_renames fs0 (pipelinePlan fs0 bases mode incD incF rs) m).1
        (apply_renames fs0 (pipelinePlan fs0 bases mode incD incF rs) m).2).1
      = fs0 ∧
    (undo_renames
        (apply_renames fs0 (pipelinePlan fs0 bases mode incD incF rs) m).1
        (apply_renames fs0 (pipelinePlan fs0 bases mode incD incF rs) m).2).2
      = (undoOrder (apply_renames fs0
          (pipelinePlan fs0 bases mode incD incF rs) m).2).map
          (fun e => (e.2.2.2.1, e.2.1, UndoTag.undone)) ∧
    collect_paths_for_bases
      (undo_renames
        (apply_renames fs0 (pipelinePlan fs0 bases mode incD incF rs) m).1
        (apply_renames fs0 (pipelinePlan fs0 bases mode incD incF rs) m).2).1
      bases mode incD incF
      = collect_paths_for_bases fs0 bases mode incD incF := by
  have hcore := round_trip_suffix fs0 bases mode incD incF rs hP hpf
  rcases hm with rfl | ⟨rfl, htags⟩
  · exact ⟨hcore.1, hcore.2, by rw [hcore.1]⟩
  · rw [apply_delete_all_rename
      (pipelinePlan fs0 bases mode incD incF rs) fs0 htags]
    exact ⟨hcore.1, hcore.2, by rw [hcore.1]⟩

/-- A store with a renamed directory containing a renamed child (nested
candidates): `r/a-b/c-d`. -/
def rtStoreA : FS :=
  [([[114]], FsNode.dir),
   ([[114], [97, 45, 98]], FsNode.dir),
   ([[114], [97, 45, 98], [99, 45, 100]], FsNode.dir)]

/-- A store where the Delete policy destroys a pre-existing target:
`r/x-1` plans onto the already-present `r/X_1`. -/
def rtStoreB : FS :=
  [([[114]], FsNode.dir),
   ([[114], [120, 45, 49]], FsNode.file [1]),
   ([[114], [88, 95, 49]], FsNode.file [2])]

/-- **C2 counterexample.**  The round trip fails without the amendment's
provisos.  With nested candidates (`r/a-b/c-d` under SUFFIX) the child's
undo finds no entry at its recorded actual target, the restored store
differs from the original, and re-enumeration yields a different candidate
list; with a Delete-policy collision (`r/x-1` onto the existing `r/X_1`)
the deleted target is gone for good. -/
theorem round_trip_counterexample :
    ((undo_renames
        (apply_renames rtStoreA
          (pipelinePlan rtStoreA [[[114]]] DepthMode.ALL true true true)
          ConflictMode.SUFFIX).1
        (apply_renames rtStoreA
          (pipelinePlan rtStoreA [[[114]]] DepthMode.ALL true true true)
          ConflictMode.SUFFIX).2).1 ≠ rtStoreA ∧
     collect_paths_for_bases
        (undo_renames
          (apply_renames rtStoreA
            (pipelinePlan rtStoreA [[[114]]] DepthMode.ALL true true true)
            ConflictMode.SUFFIX).1
          (apply_renames rtStoreA
            (pipelinePlan rtStoreA [[[114]]] DepthMode.ALL true true true)
            ConflictMode.SUFFIX).2).1 [[[114]]] DepthMode.ALL true true ≠
       collect_paths_for_bases rtStoreA [[[114]]] DepthMode.ALL true true) ∧
    (undo_renames
        (apply_renames rtStoreB
          (pipelinePlan rtStoreB [[[114]]] DepthMode.ALL true true true)
          ConflictMode.DELETE).1
        (apply_renames rtStoreB
          (pipelinePlan rtStoreB [[[114]]] DepthMode.ALL true true true)
          ConflictMode.DELETE).2).1 ≠ rtStoreB := by
  decide

/-- A flat store: one root with one renamable child. -/
def rtStoreW : FS :=
  [([[114]], FsNode.dir), ([[114], [97, 32, 98]], FsNode.dir)]

theorem round_trip_restores_witness :
    PrefixClosed (rtStoreW.map Prod.fst) ∧
    (pipelinePlan rtStoreW [[[114]]] DepthMode.ALL true true true).Pairwise
      (fun o o' => ¬ o.2.1 <+: o'.2.1 ∧ ¬ o'.2.1 <+: o.2.1) ∧
    ((undo_renames
        (apply_renames rtStoreW
          (pipelinePlan rtStoreW [[[114]]] DepthMode.ALL true true true)
          ConflictMode.SUFFIX).1
        (apply_renames rtStoreW
          (pipelinePlan rtStoreW [[[114]]] DepthMode.ALL true true true)
          ConflictMode.SUFFIX).2).1 = rtStoreW ∧
     (undo_renames
        (apply_renames rtStoreW
          (pipelinePlan rtStoreW [[[114]]] DepthMode.ALL true true true)
          ConflictMode.SUFFIX).1
        (apply_renames rtStoreW
          (pipelinePlan rtStoreW [[[114]]] DepthMode.ALL true true true)
          ConflictMode.SUFFIX).2).2
       = (undoOrder (apply_renames rtStoreW
           (pipelinePlan rtStoreW [[[114]]] DepthMode.ALL true true true)
           ConflictMode.SUFFIX).2).map
           (fun e => (e.2.2.2.1, e.2.1, UndoTag.undone)) ∧
     collect_paths_for_bases
        (undo_renames
          (apply_renames rtStoreW
            (pipelinePlan rtStoreW [[[114]]] DepthMode.ALL true true true)
            ConflictMode.SUFFIX).1
          (apply_renames rtStoreW
            (pipelinePlan rtStoreW [[[114]]] DepthMode.ALL true true true)
            ConflictMode.SUFFIX).2).1 [[[114]]] DepthMode.ALL true true
       = collect_paths_for_bases rtStoreW [[[114]]] DepthMode.ALL true true) :=
  ⟨by decide, by decide,
    round_trip_restores rtStoreW [[[114]]] DepthMode.ALL true true true
      ConflictMode.SUFFIX (by decide) (by decide) (Or.inl rfl)⟩

end Renamer
